import Mathlib

/-!
# Verification of the `os8pip` OS/8 image tool

Shallow embedding of the directory engine, word codec and file streamer of
`src/os8pip.c`, together with theorems settling the frozen claims about the
program.  Machine words (`pdp8_word_t`, i.e. C `unsigned short`) are modelled
as `Nat`, with explicit reductions where C truncation matters; 8-bit bytes
are `Nat` with range hypotheses `< 256`.  C bit operations on operands whose
set bits cannot overlap are written with `%`, `/`, `*` and `+` (for example
`w & 0377` is `w % 256`, `w >> 8` is `w / 256`, and `b0 | (b1 << 8)` is
`b0 + 256 * b1` because `b0 < 256`); each definition notes the source
function and lines it embeds.
-/

namespace Os8pip

/-- `negate` (os8pip.c:187-189): two's-complement negation of a 12-bit word,
`(4096 - word) % 4096`. -/
def negate (w : Nat) : Nat := (4096 - w) % 4096

/-! ## Word codec (claim C5)

The three packing disciplines, embedded from the block read/write routines.
Each routine converts between one 256-word OS/8 block and its host byte
image; here the word-to-byte and byte-to-word loops are extracted as list
functions (the surrounding `pread`/`pwrite` positioning is host I/O and not
part of the codec claims). -/

/-- Word loop of `write_dsk_block` (os8pip.c:978-985): each word is emitted
as two bytes, low byte first (`*word_ptr & 0377` then `*word_ptr >> 8`);
a word with any of bits 12-15 set (`w & 0170000`, i.e. `w ≥ 4096` for a
16-bit word) aborts the write (`none`). -/
def write_dsk_bytes : List Nat → Option (List Nat)
  | [] => some []
  | w :: ws =>
    if 4096 ≤ w then none
    else do
      let bs ← write_dsk_bytes ws
      some (w % 256 :: w / 256 :: bs)

/-- `byte_buffer_to_word_buffer` (os8pip.c:952-969): consecutive byte pairs
are assembled into words `b0 | (b1 << 8)`; a resulting word with bits 12-15
set (`≥ 4096`) is a corrupted block (`none`).  A trailing unpaired byte
cannot occur in the source (the buffer holds whole blocks); the `[_]` case
is the nearest total completion and is never exercised by the theorems. -/
def byte_buffer_to_word_buffer : List Nat → Option (List Nat)
  | [] => some []
  | [_] => none
  | b0 :: b1 :: bs =>
    if 4096 ≤ b0 + 256 * b1 then none
    else do
      let ws ← byte_buffer_to_word_buffer bs
      some ((b0 + 256 * b1) :: ws)

/-- `write_dectape_block` (os8pip.c:991-1022): a 256-word OS/8 block is
written as two 258-byte physical records; each record holds 128 words packed
two-bytes-per-word (the same loop as `write_dsk_block`) followed by two
zero filler bytes (`*byte_ptr++ = 0; *byte_ptr++ = 0;`, the 129th ignored
word). -/
def write_dectape_bytes (ws : List Nat) : Option (List Nat) := do
  let b1 ← write_dsk_bytes (ws.take 128)
  let b2 ← write_dsk_bytes (ws.drop 128)
  some (b1 ++ [0, 0] ++ b2 ++ [0, 0])

/-- `read_dectape_block` (os8pip.c:1064-1082): from each 258-byte physical
record only the first 256 bytes are read (the trailing word is ignored); the
two 256-byte halves are concatenated and decoded exactly as a disk block. -/
def read_dectape_words (bs : List Nat) : Option (List Nat) :=
  byte_buffer_to_word_buffer (bs.take 256 ++ (bs.drop 258).take 256)

/-- Word loop of `write_rka_block` (os8pip.c:1032-1042): each pair of words
`w1, w2` (both checked to be 12-bit, else the write aborts) is packed into
three bytes `w1 >> 4`, `((w1 & 017) << 4) | (w2 >> 8)`, `w2 & 0377`.
A single leftover word cannot occur (blocks have 256 words). -/
def write_rka_bytes : List Nat → Option (List Nat)
  | [] => some []
  | [_] => none
  | w1 :: w2 :: ws =>
    if 4096 ≤ w1 ∨ 4096 ≤ w2 then none
    else do
      let bs ← write_rka_bytes ws
      some (w1 / 16 :: (w1 % 16 * 16 + w2 / 256) :: w2 % 256 :: bs)

/-- Byte loop of `read_rka_block` (os8pip.c:1092-1101): each byte triple
`c1, c2, c3` is unpacked to the word pair `(c1 << 4) | (c2 >> 4)` and
`((c2 & 017) << 8) | c3`; no range check is performed on the result (for
8-bit input bytes the words are automatically 12-bit). -/
def read_rka_words : List Nat → List Nat
  | c1 :: c2 :: c3 :: bs =>
    (c1 * 16 + c2 / 16) :: (c2 % 16 * 256 + c3) :: read_rka_words bs
  | _ => []

/-- Positions of the DECtape ignored filler word inside a 516-byte double
record: bytes 256, 257 (first record) and 514, 515 (second record).  On
re-encode these are always written as zero. -/
def dectape_zero_ignored (bs : List Nat) : List Nat :=
  (bs.take 256) ++ [0, 0] ++ ((bs.drop 258).take 256) ++ [0, 0]

/-! ## Binary file streaming (claim C1)

`stream_host_image_file` (os8pip.c:1357-1391) computes
`output_size = (size + 510) / 512`, allocates a best-fit empty entry of that
many blocks via `allocate_os8_file`, then streams the host input with
`fread(block, 2, OS8_BLOCK_SIZE, input)`, zero-padding each short block,
writes each block at `entry.file_block + block_no`, and finally commits the
entry with the actual count of blocks written.  `stream_os8_image_file`
(os8pip.c:1393-1412) reads the committed entry's blocks back in order and
`fwrite`s each 256-word block as 512 bytes.  The content round-trip factors
through the byte/word path modelled here: the directory machinery only
chooses where the blocks land, and reading a block index just written
returns the same words (codec round-trip, claim C5). -/

/-- `fread` item assembly in `stream_host_image_file` (os8pip.c:1372):
the host byte stream is consumed as 2-byte items; buffer word `i` is the
little-endian pair `b(2i) | (b(2i+1) << 8)`.  `fread` returns the count of
complete items, so a trailing unpaired byte is dropped (`cnt` excludes it
and the loop exits on the next call). -/
def host_bytes_to_words : List Nat → List Nat
  | b0 :: b1 :: bs => (b0 + 256 * b1) :: host_bytes_to_words bs
  | _ => []

/-- The block-streaming loop of `stream_host_image_file`
(os8pip.c:1370-1388): while `fread` yields words, the remainder of the
256-word block is zeroed (`for (p = block + cnt; ...) *p++ = 0;`) and the
block is written.  `write_block` (any packing) aborts if a word fails the
12-bit check, modelled as `none`.  Returns the blocks written in order.
The `block_no >= entry.length` guard never fires because at most
`output_size ≤ entry.length` blocks are produced. -/
def stream_host_image_loop : Nat → List Nat → Option (List (List Nat))
  | _, [] => some []
  | 0, _ :: _ => none
  | fuel + 1, w :: ws =>
    if ((w :: ws).take 256 ++ List.replicate (256 - ((w :: ws).take 256).length) 0).all
        (· < 4096) then
      (stream_host_image_loop fuel ((w :: ws).drop 256)).map
        fun blocks =>
          ((w :: ws).take 256 ++
            List.replicate (256 - ((w :: ws).take 256).length) 0) :: blocks
    else none

/-- Entry point of the streaming loop; the fuel `ws.length` strictly bounds
the number of iterations (each iteration consumes at least one word), so
the fuel-exhausted branch is unreachable. -/
def stream_host_image_blocks (ws : List Nat) : Option (List (List Nat)) :=
  stream_host_image_loop ws.length ws

/-- The `fwrite(block, 2, OS8_BLOCK_SIZE, output)` serialization of
`stream_os8_image_file` (os8pip.c:1406): each 16-bit buffer word is written
as two bytes, low byte first. -/
def os8_words_to_host_bytes : List Nat → List Nat
  | [] => []
  | w :: ws => w % 256 :: w / 256 % 256 :: os8_words_to_host_bytes ws

/-- Copy-to-image of host bytes `H` followed by copy-from-image of the
same name: the committed file holds exactly the blocks written, and
copy-from emits them verbatim. -/
def image_round_trip (H : List Nat) : Option (List Nat) :=
  (stream_host_image_blocks (host_bytes_to_words H)).map
    fun blocks => os8_words_to_host_bytes blocks.flatten

/-! ## Text file streaming host→image (claim C8) -/

/-- The character handed to `put_os8_char(t, c | 0200)` (os8pip.c:1464).
`c` is a plain (signed) `char`: for a 7-bit byte the result is `b + 0x80`;
for a byte `b ≥ 0x80` the `int` promotion sign-extends, so the
`pdp8_word_t` parameter receives `0xFF00 + b` (bit 7 of `b` already set,
so the `| 0200` adds nothing). -/
def os8_mark_char (b : Nat) : Nat := if b < 128 then b + 128 else 65280 + b

/-- The per-character loop of `stream_host_text_file` (os8pip.c:1456-1474),
giving the sequence of characters handed to `put_os8_char`:
- the loop reads a char and exits on `EOF`; because `c` is a signed `char`
  compared against `EOF`, an input byte 0xFF also terminates the loop;
- `bool first_lf = true;` is re-initialized on every iteration, so every
  0x0A is preceded by an emitted 0x8D (the latent bug the spec adopts);
- NUL bytes are not emitted; every emitted character gets the mark bit;
- processing a 0x1A sets `ctrl_z_seen`, which stops the loop at the next
  iteration (the loop condition consumes one further char unprocessed);
- if the loop ended without seeing a 0x1A, a 0x9A is appended
  (os8pip.c:1469-1471).  (`ctrl_z_seen` is read uninitialized on the first
  iteration in the source; it is modelled as initially false, the evident
  intent.) -/
def stream_host_text_chars : List Nat → List Nat
  | [] => [154]
  | c :: rest =>
    if c = 255 then [154]
    else
      (if c = 10 then [141] else []) ++
      (if c ≠ 0 then [os8_mark_char c] else []) ++
      (if c = 26 then [] else stream_host_text_chars rest)

/-- `put_os8_char`'s three-characters-per-two-words packing
(os8pip.c:1417-1439) together with the two flushing zero-character calls
(os8pip.c:1473-1474): each character group `c0,c1,c2` becomes the word pair
`c0 | ((c2 & 0360) << 4)` and `c1 | ((c2 & 017) << 8)`; a trailing partial
group is completed with zero characters by the flush (and if no characters
are pending, the flush writes nothing).  The `|` is written `+` because an
8-bit character payload cannot overlap the shifted nibble fields. -/
def put_os8_words : List Nat → List Nat
  | c0 :: c1 :: c2 :: rest =>
    (c0 + c2 / 16 % 16 * 256) :: (c1 + c2 % 16 * 256) :: put_os8_words rest
  | [c0, c1] => [c0, c1]
  | [c0] => [c0, 0]
  | [] => []

/-- The packed words `stream_host_text_file` produces for a host input:
the emitted character stream packed three-per-two-words.  (The packed
buffer is then written through `stream_host_image_file` keyed by its byte
length.) -/
def stream_host_text_words (H : List Nat) : List Nat :=
  put_os8_words (stream_host_text_chars H)

/-- The packing claim C8 ascribes to `stream_host_text_file`, built from
the claim's words for comparison with the implementation: one 0x8D
inserted before every 0x0A of the input, every emitted (nonzero) input
character with the mark bit 0x80 set, a trailing 0x9A appended whenever
the input does not end with 0x1A, and zero padding of the final partial
three-character group. -/
def text_encode_claimed (H : List Nat) : List Nat :=
  put_os8_words
    ((H.flatMap fun c =>
        (if c = 10 then [141] else []) ++ (if c ≠ 0 then [c + 128] else [])) ++
      (if H.getLast? = some 26 then [] else [154]))

/-! ## Word-level segment shifting (claims C4 and C7)

A directory segment is one 256-word block; `dir_struct_t` (os8pip.c:74-81)
lays out `number_files`, `first_file_block`, `next_segment`, `flag_word`,
`additional_words` at word indices 0..4, with `file_entries` starting at
index 5.  Entry pointers into the block are word indices here. -/

/-- The copy loop of `shuffle_words_down` (os8pip.c:211-216):
`while (src <= last) *dst++ = *src++;` with `last` the final word of the
block; one recursion step per iteration.  `dst ≤ src`, so every source word
is read before the sweep overwrites it. -/
def shuffle_words_down_loop : Nat → List Nat → Nat → Nat → List Nat
  | 0, data, _, _ => data
  | n + 1, data, src, dst =>
    shuffle_words_down_loop n (data.set dst (data.getD src 0)) (src + 1) (dst + 1)

/-- `shuffle_words_down` on a block: the loop runs once per source index
from `src` through the last word, i.e. `data.length - src` times. -/
def shuffle_words_down (data : List Nat) (src dst : Nat) : List Nat :=
  shuffle_words_down_loop (data.length - src) data src dst

/-- The copy loop of `shuffle_words_up` (os8pip.c:204-209):
`while (src >= last) *dst-- = *src--;` copies descending from `src` down to
`last`; `dst = src + offset` stays ahead of the reads. -/
def shuffle_words_up_loop : Nat → List Nat → Nat → Nat → List Nat
  | 0, data, _, _ => data
  | n + 1, data, src, dst =>
    shuffle_words_up_loop n (data.set dst (data.getD src 0)) (src - 1) (dst - 1)

/-- `shuffle_words_up` from `src` down to `last` inclusive:
`src + 1 - last` iterations (none when `src < last`). -/
def shuffle_words_up (data : List Nat) (src dst last : Nat) : List Nat :=
  shuffle_words_up_loop (src + 1 - last) data src dst

/-- `fix_segment_down` (os8pip.c:611-620): shuffle the words following the
entry (starting at `entryIdx + entryLen`) down onto `entryIdx + offset`,
then, if the segment's `flag_word` (index 3) is nonzero and refers to a
position strictly beyond the entry (`data + (flag - 01400) > entry.entry`,
i.e. `flag - 0o1400 > entryIdx` for a valid flag in [0o1400, 0o1777]),
subtract the shift delta `entryLen - offset` from it. -/
def fix_segment_down (data : List Nat) (entryIdx entryLen offset : Nat) : List Nat :=
  let d := shuffle_words_down data (entryIdx + entryLen) (entryIdx + offset)
  let flag := d.getD 3 0
  if flag ≠ 0 ∧ 0o1400 + entryIdx < flag then
    d.set 3 (flag - (entryLen - offset))
  else d

/-- `fix_segment_up` (os8pip.c:601-609): shuffle the words from `firstIdx`
down through `entryIdx` upward by `offset` positions, then, if the
segment's `flag_word` is nonzero and refers to a position strictly beyond
the entry, add the shift delta to it, clearing it to 0 when the sum
exceeds 0o1777. -/
def fix_segment_up (data : List Nat) (entryIdx offset firstIdx : Nat) : List Nat :=
  let d := shuffle_words_up data firstIdx (firstIdx + offset) entryIdx
  let flag := d.getD 3 0
  if flag ≠ 0 ∧ 0o1400 + entryIdx < flag then
    d.set 3 (if 0o1777 < flag + offset then 0 else flag + offset)
  else d

/-- `delete_entry` (os8pip.c:1308-1318) on the segment's words, for a
present entry of word length `entryLen` at word index `entryIdx` whose
length word sits at `entryIdx + entryLen - 1`: first `fix_segment_down`
with offset `empty_entry_length = 2`, then `put_entry` of the entry turned
empty — a zero flag word at `entryIdx` followed by
`negate(entry.length)` where `entry.length = negate(<original length
word>)` was taken by `peek_entry` before the call. -/
def delete_entry_words (data : List Nat) (entryIdx entryLen : Nat) : List Nat :=
  let d := fix_segment_down data entryIdx entryLen 2
  (d.set entryIdx 0).set (entryIdx + 1)
    (negate (negate (data.getD (entryIdx + entryLen - 1) 0)))

/-! ## Directory model (claims C2, C3, C6, C9, C10)

The in-memory directory is `directory_t`, an array of six `dir_block_t`
(os8pip.c:83-95): a dirty flag plus one 256-word block viewed as
`dir_struct_t` — the five header words and then packed file entries.  Here
a segment carries the header words and the *parsed* entry list: the C
cursor machinery (`init_cursor`/`valid_entry`/`peek_entry`/`get_entry`,
os8pip.c:475-573) parses `negate(number_files)` packed entries off the
word array; the model holds those entries directly, relying on the
read-time coherence between `number_files` and the packed data.  (Claims
C4 and C7, which are about raw word shifts, are handled word-level
above.)  A present entry's word cost is
`file_entry_length = 4 + 1 + negate(additional_words)`
(os8pip.c:510-514), an empty entry costs `empty_entry_length = 2`. -/

/-- One parsed file entry: `entry_t` (os8pip.c:112-122) without the
back-pointers (`dir_block`, `entry`, `file_block`, `file_number`), which
the cursor recomputes while walking. -/
structure FileEntry where
  emptyFile : Bool
  name : List Nat
  additional : List Nat
  length : Nat
deriving DecidableEq

/-- One directory segment: `dir_block_t`'s dirty flag plus the
`dir_struct_t` header words (raw 12-bit words) and the parsed entry
list. -/
structure Segment where
  dirty : Bool
  numberFiles : Nat
  firstFileBlock : Nat
  nextSegment : Nat
  flagWord : Nat
  additionalWords : Nat
  entries : List FileEntry
deriving DecidableEq

/-- The per-segment check of `validate_directory` (os8pip.c:630-635):
`next_segment <= 6 && number_files != 0 && negate(number_files) < 100 &&
negate(additional_words) < 10 && (flag_word == 0 ||
directory->d.dir_struct.flag_word >= 01400 && directory[i].d.dir_struct.flag_word <= 01777)`.
Note the source's lower-bound test reads `directory->...flag_word`, i.e.
segment 1's flag word (`directory[0]`), not segment `i`'s — transcribed
verbatim via `headFlag`. -/
def validate_segment (headFlag : Nat) (seg : Segment) : Bool :=
  decide (seg.nextSegment ≤ 6) && (seg.numberFiles != 0) &&
  decide (negate seg.numberFiles < 100) &&
  decide (negate seg.additionalWords < 10) &&
  ((seg.flagWord == 0) ||
    (decide (0o1400 ≤ headFlag) && decide (seg.flagWord ≤ 0o1777)))

/-- The `do { ... i = next_segment - 1; } while (i >= 0)` walk of
`validate_directory` (os8pip.c:622-641), fuel-bounded: an acyclic chain
visits at most six segments; a cyclic chain makes the C loop run forever
(fuel exhaustion, unreachable for the directories the theorems use). -/
def validate_from : Nat → List Segment → Nat → Bool
  | 0, _, _ => false
  | fuel + 1, dir, i =>
    match dir[i]? with
    | none => false
    | some seg =>
      if validate_segment (match dir with | s :: _ => s.flagWord | [] => 0) seg then
        if seg.nextSegment = 0 then true else validate_from fuel dir (seg.nextSegment - 1)
      else false

/-- `validate_directory` starts at segment 1 (index 0). -/
def validate_directory (dir : List Segment) : Bool := validate_from 6 dir 0

/-- The view of an entry the `get_empty_entry` loop works with: the empty
flag and block length from `peek_entry`, plus the `(dir_block,
file_number)` identity the exclusion test compares (os8pip.c:759-760);
`seg` is the segment index standing for the `dir_block` pointer. -/
structure EntryRef where
  emptyFile : Bool
  length : Nat
  seg : Nat
  fileNumber : Nat
deriving DecidableEq

/-- The forward cursor walk (`init_cursor` then repeated
`valid_entry`/`get_entry`, os8pip.c:475-573): emit the current segment's
entries with 1-based file numbers, then follow `next_segment`;
fuel-bounded by the six-segment capacity (`assert(next_segment <=
DIR_LENGTH)`); a cyclic chain would loop forever in C. -/
def cursor_walk : Nat → List Segment → Nat → List EntryRef
  | 0, _, _ => []
  | fuel + 1, dir, i =>
    match dir[i]? with
    | none => []
    | some seg =>
      seg.entries.mapIdx (fun k e => ⟨e.emptyFile, e.length, i, k + 1⟩) ++
        (if seg.nextSegment = 0 then [] else cursor_walk fuel dir (seg.nextSegment - 1))

/-- All entries of the directory in cursor order, starting at segment 1. -/
def directory_entries (dir : List Segment) : List EntryRef := cursor_walk 6 dir 0

/-- The candidate test of `get_empty_entry`'s loop (os8pip.c:759-761):
not identical to the excluded entry by `(dir_block, file_number)`, an
empty file, and at least the requested length. -/
abbrev gee_candidate (ex : Nat × Nat) (len : Nat) (e : EntryRef) : Prop :=
  (e.seg ≠ ex.1 ∨ e.fileNumber ≠ ex.2) ∧ e.emptyFile = true ∧ len ≤ e.length

/-- The best-so-far replacement test (os8pip.c:762-764):
`best_entry->length == 0 || (length == 0 ? entry.length > best_entry->length
: entry.length < best_entry->length)`. -/
abbrev gee_improves (len : Nat) (e best : EntryRef) : Prop :=
  best.length = 0 ∨
    (if len = 0 then best.length < e.length else e.length < best.length)

/-- The scan loop of `get_empty_entry` (os8pip.c:756-767) over the cursor
walk, carrying the best entry so far (only its `length` field is
initialized, to 0, at os8pip.c:754). -/
def get_empty_entry_loop (ex : Nat × Nat) (len : Nat) :
    List EntryRef → EntryRef → EntryRef
  | [], best => best
  | e :: es, best =>
    if gee_candidate ex len e ∧ gee_improves len e best then
      get_empty_entry_loop ex len es e
    else
      get_empty_entry_loop ex len es best

/-- `get_empty_entry` (os8pip.c:748-769): scan the whole directory and
report success iff the final best length is nonzero
(`return best_entry->length != 0`). -/
def get_empty_entry (dir : List Segment) (ex : Nat × Nat) (len : Nat) :
    Bool × EntryRef :=
  let best := get_empty_entry_loop ex len (directory_entries dir) ⟨true, 0, 0, 0⟩
  (best.length != 0, best)

/-- One pass of `consolidate` (os8pip.c:678-706) over one segment's entry
list, fuel-bounded by the list length (every step consumes at least one
entry).  Returns the resulting entries and the number of
`bump_number_files(dir_block, -1)` calls (entry removals).
- A zero-length empty entry is dropped (`fix_segment_down(entry, 0)`).
  The cursor has already advanced two words past the entry and the shift
  moves the remaining words down by two, so the cursor lands two words
  into the *following* entry: if that entry is empty (two words) the
  cursor sits exactly past it and the entry is skipped unexamined
  (modelled by keeping `b` verbatim); if it is a present entry the C
  cursor misparses its interior words and may issue further destructive
  shifts and `number_files` bumps, which an entry-level model cannot
  express — the clean-skip branch here is faithful only when the
  successor is empty, so every theorem about this pass restricts to
  entry lists in which no zero-length empty precedes a present entry
  (`zero_skip_only`; the stronger `zero_final` for the full cleanup
  guarantee), plus the skip case exercised by the counterexample.
- Two adjacent empty entries in the same segment merge: the first's
  length becomes the sum (`put_entry`), the second is dropped, and
  `restore_cursor` re-examines the merged entry (the recursive call on
  the merged list).
- The merge guard `!overflowed_segment(cursor) && next_entry.empty_file`
  never looks past the segment's own entries. -/
def consolidateSeg_loop : Nat → List FileEntry → List FileEntry × Nat
  | 0, es => (es, 0)
  | _ + 1, [] => ([], 0)
  | fuel + 1, e :: rest =>
    if e.emptyFile = true ∧ e.length = 0 then
      match rest with
      | [] => ([], 1)
      | b :: rest2 =>
        (b :: (consolidateSeg_loop fuel rest2).1,
          (consolidateSeg_loop fuel rest2).2 + 1)
    else if e.emptyFile = true then
      match rest with
      | b :: rest2 =>
        if b.emptyFile = true then
          ((consolidateSeg_loop fuel
              (⟨true, e.name, e.additional, e.length + b.length⟩ :: rest2)).1,
            (consolidateSeg_loop fuel
              (⟨true, e.name, e.additional, e.length + b.length⟩ :: rest2)).2 + 1)
        else
          (e :: (consolidateSeg_loop fuel (b :: rest2)).1,
            (consolidateSeg_loop fuel (b :: rest2)).2)
      | [] => ([e], 0)
    else
      (e :: (consolidateSeg_loop fuel rest).1, (consolidateSeg_loop fuel rest).2)

/-- The consolidation pass over one segment's entries. -/
def consolidateSeg (es : List FileEntry) : List FileEntry × Nat :=
  consolidateSeg_loop es.length es

/-- `consolidate` (os8pip.c:643-706) walks the segment chain (all
mutations are segment-local) applying the per-segment pass; each removal
is a `bump_number_files(dir_block, -1)` — `number_files` is incremented
(mod 2^16, `pdp8_word_t` arithmetic) and the segment marked dirty; every
mutation path (`put_entry`, `bump_number_files`) sets the dirty flag.
The `flag_word` adjustment done inside `fix_segment_down` is word-offset
bookkeeping not tracked at entry granularity and no theorem refers to the
flag word after consolidation.  Fuel-bounded by the six-segment
capacity. -/
def consolidate_walk : Nat → List Segment → Nat → List Segment
  | 0, dir, _ => dir
  | fuel + 1, dir, i =>
    match dir[i]? with
    | none => dir
    | some seg =>
      if seg.nextSegment = 0 then
        dir.set i
          ⟨seg.dirty || decide ((consolidateSeg seg.entries).2 ≠ 0),
            (seg.numberFiles + (consolidateSeg seg.entries).2) % 65536,
            seg.firstFileBlock, seg.nextSegment, seg.flagWord,
            seg.additionalWords, (consolidateSeg seg.entries).1⟩
      else
        consolidate_walk fuel
          (dir.set i
            ⟨seg.dirty || decide ((consolidateSeg seg.entries).2 ≠ 0),
              (seg.numberFiles + (consolidateSeg seg.entries).2) % 65536,
              seg.firstFileBlock, seg.nextSegment, seg.flagWord,
              seg.additionalWords, (consolidateSeg seg.entries).1⟩)
          (seg.nextSegment - 1)

/-- `consolidate` starts at segment 1 (index 0). -/
def consolidate (dir : List Segment) : List Segment := consolidate_walk 6 dir 0

/-- Sum of the block lengths of a list of entries. -/
def sum_lengths (es : List FileEntry) : Nat := (es.map (·.length)).sum

/-- No zero-length empty entry has a successor within the segment (i.e.
zero-length empties are final): the domain on which the consolidation
pass is fully described at entry granularity (see `consolidateSeg_loop`). -/
def zero_final : List FileEntry → Bool
  | e :: b :: rest => !(e.emptyFile && e.length == 0) && zero_final (b :: rest)
  | _ => true

/-- No two adjacent entries are both empty. -/
def no_adjacent_empty : List FileEntry → Bool
  | e :: b :: rest => !(e.emptyFile && b.emptyFile) && no_adjacent_empty (b :: rest)
  | _ => true

/-- No zero-length empty entry is immediately followed by a *present*
entry: on such lists the consolidation cursor's two-word overshoot after
a removal lands either at the segment end or exactly past an empty
successor, so the entry-level pass (`consolidateSeg_loop`) computes
exactly what the C pass does.  (A zero-length empty before a present
entry instead makes the C cursor re-parse from two words inside that
entry, with word-level effects — possible extra shifts and
`number_files` bumps — no entry-level model can express.) -/
def zero_skip_only : List FileEntry → Bool
  | e :: b :: rest =>
    !(e.emptyFile && e.length == 0 && !b.emptyFile) && zero_skip_only (b :: rest)
  | _ => true

/-- A one-segment directory whose only empty entry has length zero: one
present file of 3 blocks followed by a zero-length empty
(`number_files = negate 2`). -/
def c2dir : List Segment :=
  [⟨false, negate 2, 7, 0, 0, negate 1,
    [⟨false, [0o0102, 0, 0, 0], [0], 3⟩, ⟨true, [], [], 0⟩]⟩]

/-- A one-segment directory with a 3-block file and empty entries of 5 and
9 blocks (`number_files = negate 3`). -/
def c2wdir : List Segment :=
  [⟨false, negate 3, 7, 0, 0, negate 1,
    [⟨false, [0o0102, 0, 0, 0], [0], 3⟩, ⟨true, [], [], 5⟩, ⟨true, [], [], 9⟩]⟩]

/-- A one-segment directory with two empty entries of equal length 5
(`number_files = negate 2`). -/
def c10wdir : List Segment :=
  [⟨false, negate 2, 7, 0, 0, negate 1,
    [⟨true, [], [], 5⟩, ⟨true, [], [], 5⟩]⟩]

/-- Segment 1 of the `validate_directory` failing input: a well-formed
segment with `flag_word = 0o1400` linking to segment 2. -/
def c6seg1 : Segment := ⟨false, negate 1, 7, 2, 0o1400, negate 1, [⟨true, [], [], 100⟩]⟩

/-- Segment 2 of the `validate_directory` failing input: well-formed
except that its `flag_word` is 1, which is neither 0 nor in
[0o1400, 0o1777]. -/
def c6seg2 : Segment := ⟨false, negate 1, 107, 0, 1, negate 1, [⟨true, [], [], 50⟩]⟩

/-- An all-zero unreachable padding segment. -/
def padSegment : Segment := ⟨false, 0, 0, 0, 0, 0, []⟩

/-- The six-segment failing input for `validate_directory`: segment 1
links to segment 2 whose `flag_word` is invalid. -/
def c6dir : List Segment :=
  [c6seg1, c6seg2, padSegment, padSegment, padSegment, padSegment]

/-- A one-segment directory holding two zero-length empty entries and one
present 5-block file (`number_files = negate 3`): the consolidation
counterexample input. -/
def c3dir : List Segment :=
  [⟨false, negate 3, 7, 0, 0, negate 1,
    [⟨true, [], [], 0⟩, ⟨true, [], [], 0⟩, ⟨false, [0o0102, 0, 0, 0], [0], 5⟩]⟩]

/-- A segment entry list with empties separated by a present entry:
consolidation leaves it unchanged. -/
def c3wes : List FileEntry :=
  [⟨true, [], [], 2⟩, ⟨false, [0o0102, 0, 0, 0], [0], 3⟩, ⟨true, [], [], 4⟩]

/-- A single segment with a present file followed by two adjacent empties
(the consolidation witness input). -/
def c3wseg : Segment :=
  ⟨false, negate 3, 7, 0, 0, negate 1,
    [⟨false, [0o0102, 0, 0, 0], [0], 3⟩, ⟨true, [], [], 5⟩, ⟨true, [], [], 9⟩]⟩

/-! ## The `enter` insertion engine (claim C9)

`enter` (os8pip.c:808-944) inserts a new file entry in front of an empty
entry the caller obtained from `get_empty_entry`.  The model works at
entry granularity over `List Segment` (same abstraction and coherence
assumption — `negate(number_files)` matches the packed entry list — as
the `consolidate` model above).  The tracked entry is the pair
`(segment index, file_number)` standing for the C `entry_t`'s
`(dir_block, file_number)`; word-level cursor pointers reduce to
positions in the entry list.  C aborts (`assert`) and undefined behavior
(out-of-range segment links, `get_last_entry` on a fileless segment,
`return false`) all map to `none`: the theorems speak only about runs
that return successfully. -/

/-- `file_entry_length` (os8pip.c:510-514): four name words, the length
word, and `negate(additional_words)` additional words, counted from the
segment header. -/
def file_entry_length (seg : Segment) : Nat := 5 + negate seg.additionalWords

/-- `entry_length` (os8pip.c:516-520): an empty entry costs
`empty_entry_length = 2` words, a present entry `file_entry_length`. -/
def entry_length (seg : Segment) (e : FileEntry) : Nat :=
  if e.emptyFile then 2 else file_entry_length seg

/-- Words consumed by the packed entries of a segment, from the start of
`file_entries`. -/
def used_words (seg : Segment) : Nat := (seg.entries.map (entry_length seg)).sum

/-- `get_unused_ptr(dir_block, size) != NULL` (os8pip.c:729-739): the
free pointer is `file_entries + used_words` = word 5 + `used_words` of
the 256-word block, and the test is `empty_ptr + size < data + 256`. -/
def has_room (seg : Segment) (size : Nat) : Bool :=
  decide (5 + used_words seg + size < 256)

/-- The `flag_word` update of `fix_segment_up` (os8pip.c:601-609) in word
offsets from the block start: if the flag is nonzero and
`data + (flag - 01400)` lies strictly beyond the insertion point
`entryOff` (for `flag < 01400` the C pointer arithmetic goes below
`data`, so the comparison is false), add the shift `offset`, clearing to
0 past 0o1777. -/
def adjust_flag_up (flag offset entryOff : Nat) : Nat :=
  if flag ≠ 0 ∧ 0o1400 + entryOff < flag then
    if 0o1777 < flag + offset then 0 else flag + offset
  else flag

/-- Word offset of entry index `k` from the block start: five header
words plus the packed lengths of the preceding entries. -/
def entry_offset (seg : Segment) (k : Nat) : Nat :=
  5 + ((seg.entries.take k).map (entry_length seg)).sum

/-- The inner scan of `enter`'s outer loop (os8pip.c:833-873): starting
from `entry.dir_block`, follow `next_segment` links; at the first
successor with room return `Sum.inl` of its *predecessor* (the C code
then moves the predecessor's last entry forward and breaks); if a
segment with `next_segment == 0` is reached first, return `Sum.inr` of
that tail (the C code then allocates).  An out-of-range link is C
undefined behavior (`none`); a cyclic chain never terminates in C (fuel
runs out, `none`). -/
def find_room : Nat → List Segment → Nat → Nat → Option (Nat ⊕ Nat)
  | 0, _, _, _ => none
  | fuel + 1, dir, i, size =>
    match dir[i]? with
    | none => none
    | some seg =>
      if seg.nextSegment = 0 then some (Sum.inr i)
      else
        match dir[seg.nextSegment - 1]? with
        | none => none
        | some nseg =>
          if has_room nseg size then some (Sum.inl i)
          else find_room fuel dir (seg.nextSegment - 1) size

/-- Source side of a move (os8pip.c:852): `bump_number_files(dir_block,
-1)` marks the block dirty and adds one to the `number_files` word
(unsigned-short arithmetic), and the last entry leaves the counted
region (its words are simply left beyond the shortened count). -/
def move_src_update (pseg : Segment) : Segment :=
  ⟨true, (pseg.numberFiles + 1) % 65536, pseg.firstFileBlock,
    pseg.nextSegment, pseg.flagWord, pseg.additionalWords,
    pseg.entries.dropLast⟩

/-- Destination side of a move (os8pip.c:853-865):
`bump_number_files(next, 1)` subtracts one from the `number_files`
word, `bump_first_file_block(next, -last.length)` subtracts the moved
length, `fix_segment_up` opens `entry_length` words at `file_entries`
(word offset 5) adjusting the flag word, and `put_entry` stores the
moved entry first, marking the block dirty. -/
def move_dst_update (qseg : Segment) (last : FileEntry) : Segment :=
  ⟨true, (qseg.numberFiles + 65535) % 65536,
    (qseg.firstFileBlock + (65536 - last.length % 65536)) % 65536,
    qseg.nextSegment,
    adjust_flag_up qseg.flagWord (entry_length qseg last) 5,
    qseg.additionalWords, last :: qseg.entries⟩

/-- One move step (os8pip.c:843-871): read the source's last entry, then
update source and destination.  The destination is read from the state
*after* the source update, mirroring the C sequential field updates (the
two blocks coincide when `next_segment` links a segment to itself).  If
the moved entry is the tracked one (`last_entry.file_number ==
entry.file_number && last_entry.dir_block == entry.dir_block`,
os8pip.c:848-849), it is rebound to file 1 of the destination. -/
def do_move (dir : List Segment) (p : Nat) (entry : Nat × Nat) :
    Option (List Segment × (Nat × Nat)) :=
  match dir[p]? with
  | none => none
  | some pseg =>
    match pseg.entries.getLast? with
    | none => none
    | some last =>
      match (dir.set p (move_src_update pseg))[pseg.nextSegment - 1]? with
      | none => none
      | some qseg =>
        some ((dir.set p (move_src_update pseg)).set (pseg.nextSegment - 1)
            (move_dst_update qseg last),
          if p = entry.1 ∧ pseg.entries.length = entry.2 then
            (pseg.nextSegment - 1, 1)
          else entry)

/-- The tail after `set_next_segment(dir_block, index + 1)`
(os8pip.c:885): dirty, linked to the new segment; everything else
unchanged. -/
def alloc_src_update (tseg : Segment) (t : Nat) : Segment :=
  ⟨true, tseg.numberFiles, tseg.firstFileBlock, t + 2, tseg.flagWord,
    tseg.additionalWords, tseg.entries⟩

/-- The freshly written segment (os8pip.c:886-896): `number_files =
negate(1)`, `first_file_block = temp_entry.file_block +
entry_length(temp_entry)` — the last entry's block plus its *word*
length, transcribed verbatim — no link, no flag, the predecessor's
`additional_words`, and one zero-length empty entry
(`file_entries[0] = file_entries[1] = 0`).  The dirty flag is **not**
written: it keeps the slot's previous value. -/
def alloc_new_segment (tseg old : Segment) (last : FileEntry) : Segment :=
  ⟨old.dirty, 4095,
    (tseg.firstFileBlock + sum_lengths tseg.entries.dropLast +
      entry_length tseg last) % 65536,
    0, 0, tseg.additionalWords, [⟨true, [], [], 0⟩]⟩

/-- The allocation step (os8pip.c:880-901) at tail `t`:
`index = index_from_dir_block(...) + 1 = t + 1` must satisfy
`index < DIR_LENGTH = 6` (else `return false`); then the tail is linked
to the new segment and the new segment's header and first two entry
words are written. -/
def do_alloc (dir : List Segment) (t : Nat) : Option (List Segment) :=
  if t + 1 < 6 then
    match dir[t]? with
    | none => none
    | some tseg =>
      match dir[t + 1]?, tseg.entries.getLast? with
      | some old, some last =>
        some ((dir.set t (alloc_src_update tseg t)).set (t + 1)
          (alloc_new_segment tseg old last))
      | _, _ => none
  else none

/-- The outer `while ((unused_ptr = get_unused_ptr(...)) == NULL)` loop
of `enter` (os8pip.c:823-902): exit as soon as the tracked entry's
segment has room for `min_free_length` words; otherwise scan for a
roomy successor and move one entry forward, or allocate at the tail.
Fuel-bounded (the C loop's termination is not obvious; a run that
returns is all the theorems need). -/
def enter_loop : Nat → List Segment → Nat × Nat → Nat →
    Option (List Segment × (Nat × Nat))
  | 0, _, _, _ => none
  | fuel + 1, dir, entry, minFree =>
    match dir[entry.1]? with
    | none => none
    | some eseg =>
      if has_room eseg minFree then some (dir, entry)
      else
        match find_room 6 dir entry.1 minFree with
        | none => none
        | some (Sum.inl p) =>
          match do_move dir p entry with
          | none => none
          | some (dir2, entry2) => enter_loop fuel dir2 entry2 minFree
        | some (Sum.inr t) =>
          match do_alloc dir t with
          | none => none
          | some dir2 => enter_loop fuel dir2 entry minFree

/-- The entry list after the final insertion (os8pip.c:907-932): the new
present entry (name from `build_sixbit`, `MIN(10, additional_count)`
zeroed additional words, the actual length) goes in front of the empty
entry at index `k`, which survives with its length diminished by the
file's length. -/
def enter_new_entries (eseg : Segment) (k : Nat) (old : FileEntry)
    (name : List Nat) (len : Nat) : List FileEntry :=
  eseg.entries.take k ++
    ⟨false, name, List.replicate (min 10 (negate eseg.additionalWords)) 0, len⟩ ::
    ⟨true, old.name, old.additional, old.length - len⟩ ::
    eseg.entries.drop (k + 1)

/-- The tracked entry's segment after the final insertion:
`fix_segment_up` adjusts the flag word at the entry's word offset,
`bump_number_files(entry.dir_block, 1)` subtracts one from the
`number_files` word and marks the block dirty, and the two `put_entry`
calls store the new entry and the diminished empty. -/
def enter_updated_segment (eseg : Segment) (k : Nat) (old : FileEntry)
    (name : List Nat) (len newLen : Nat) : Segment :=
  ⟨true, (eseg.numberFiles + 65535) % 65536, eseg.firstFileBlock,
    eseg.nextSegment,
    adjust_flag_up eseg.flagWord newLen (entry_offset eseg k),
    eseg.additionalWords, enter_new_entries eseg k old name len⟩

/-- The post-loop tail of `enter` (os8pip.c:907-943): the entry peeked
after the insertion must be the empty file handed to the caller
(`assert(entry.empty_file); assert(entry.length >= length)` — an
assertion failure aborts, `none`), then the segment is rewritten and
`consolidate` runs over the whole directory. -/
def finish_enter (dir : List Segment) (entry : Nat × Nat) (name : List Nat)
    (len newLen : Nat) : Option (List Segment) :=
  match dir[entry.1]? with
  | none => none
  | some eseg =>
    match eseg.entries[entry.2 - 1]? with
    | none => none
    | some old =>
      if old.emptyFile = true ∧ len ≤ old.length then
        some (consolidate (dir.set entry.1
          (enter_updated_segment eseg (entry.2 - 1) old name len newLen)))
      else none

/-- `enter` (os8pip.c:808-944): `new_entry_length` and `min_free_length
= new_entry_length + empty_entry_length` are computed once from the
entry's original segment; then the room-making loop, the
`assert(validate_directory(directory))` (os8pip.c:904, abort = `none`),
and the final insertion.  `name` stands for the sixbit words
`build_sixbit` produces from the filename. -/
def enter (fuel : Nat) (name : List Nat) (len : Nat) (dir : List Segment)
    (entry : Nat × Nat) : Option (List Segment) :=
  match dir[entry.1]? with
  | none => none
  | some eseg =>
    match enter_loop fuel dir entry (file_entry_length eseg + 2) with
    | none => none
    | some (dir2, e2) =>
      if validate_directory dir2 = true then
        finish_enter dir2 e2 name len (file_entry_length eseg)
      else none

/-- A segment with its dirty flag erased: two segments with equal
`seg_content` hold the same header words and entries — the same block
image. -/
def seg_content (s : Segment) : Segment :=
  ⟨false, s.numberFiles, s.firstFileBlock, s.nextSegment, s.flagWord,
    s.additionalWords, s.entries⟩

/-- A valid one-segment directory with a single 10-block empty entry:
the `enter` witness input. -/
def c9wdir : List Segment :=
  [⟨false, negate 1, 7, 0, 0, negate 1, [⟨true, [], [], 10⟩]⟩]

/-! ## Theorems -/

/-- Helper: `write_dsk_bytes` on an append splits into the two halves. -/
lemma write_dsk_bytes_append (xs ys : List Nat) :
    write_dsk_bytes (xs ++ ys) =
      (write_dsk_bytes xs).bind fun b1 =>
        (write_dsk_bytes ys).map fun b2 => b1 ++ b2 := by
  induction xs using write_dsk_bytes.induct with
  | case1 =>
    cases h : write_dsk_bytes ys <;> simp [write_dsk_bytes, h]
  | case2 w ws hw =>
    simp [write_dsk_bytes, hw]
  | case3 w ws hw ih =>
    cases h1 : write_dsk_bytes ws <;> cases h2 : write_dsk_bytes ys <;>
      simp [write_dsk_bytes, hw, h1, h2, ih]

/-- Helper: a successful `write_dsk_bytes` doubles the length. -/
lemma write_dsk_bytes_length (xs : List Nat) (bs : List Nat)
    (h : write_dsk_bytes xs = some bs) : bs.length = 2 * xs.length := by
  induction xs using write_dsk_bytes.induct generalizing bs with
  | case1 =>
    simp [write_dsk_bytes] at h
    subst h
    simp
  | case2 w ws hw =>
    simp [write_dsk_bytes, hw] at h
  | case3 w ws hw ih =>
    simp only [write_dsk_bytes, hw, if_false, Option.bind_eq_bind,
      Option.bind_eq_some] at h
    obtain ⟨b1, hb1, hbs⟩ := h
    simp at hbs
    subst hbs
    simp [ih b1 hb1]
    ring

/-- Helper: a successful decode halves the length. -/
lemma byte_buffer_to_word_buffer_length (bs ws : List Nat)
    (h : byte_buffer_to_word_buffer bs = some ws) : bs.length = 2 * ws.length := by
  induction bs using byte_buffer_to_word_buffer.induct generalizing ws with
  | case1 =>
    simp [byte_buffer_to_word_buffer] at h
    subst h
    simp
  | case2 b =>
    simp [byte_buffer_to_word_buffer] at h
  | case3 b0 b1 bs hw =>
    simp [byte_buffer_to_word_buffer, hw] at h
  | case4 b0 b1 bs hw ih =>
    simp only [byte_buffer_to_word_buffer, hw, if_false, Option.bind_eq_bind,
      Option.bind_eq_some] at h
    obtain ⟨ws1, hws1, hws⟩ := h
    simp at hws
    subst hws
    simp [ih ws1 hws1]
    ring

/-- Helper: decode distributes over an append whose first part decodes. -/
lemma byte_buffer_to_word_buffer_append (bs1 ws1 : List Nat) (bs2 : List Nat)
    (h : byte_buffer_to_word_buffer bs1 = some ws1) :
    byte_buffer_to_word_buffer (bs1 ++ bs2) =
      (byte_buffer_to_word_buffer bs2).map fun ws2 => ws1 ++ ws2 := by
  induction bs1 using byte_buffer_to_word_buffer.induct generalizing ws1 with
  | case1 =>
    simp [byte_buffer_to_word_buffer] at h
    subst h
    cases h2 : byte_buffer_to_word_buffer bs2 <;> simp [h2]
  | case2 b =>
    simp [byte_buffer_to_word_buffer] at h
  | case3 b0 b1 bs hw =>
    simp [byte_buffer_to_word_buffer, hw] at h
  | case4 b0 b1 bs hw ih =>
    simp only [byte_buffer_to_word_buffer, hw, if_false, Option.bind_eq_bind,
      Option.bind_eq_some] at h
    obtain ⟨ws0, hws0, hws⟩ := h
    simp at hws
    subst hws
    cases h2 : byte_buffer_to_word_buffer bs2 <;>
      simp [byte_buffer_to_word_buffer, hw, h2, ih ws0 hws0]

/-- Helper: encoding a block two-bytes-per-word and decoding the bytes is the
identity (encode succeeding means every word passed the 12-bit check). -/
lemma write_dsk_bytes_sound (ws bs : List Nat)
    (h : write_dsk_bytes ws = some bs) :
    byte_buffer_to_word_buffer bs = some ws := by
  induction ws using write_dsk_bytes.induct generalizing bs with
  | case1 =>
    simp [write_dsk_bytes] at h
    subst h
    simp [byte_buffer_to_word_buffer]
  | case2 w ws hw =>
    simp [write_dsk_bytes, hw] at h
  | case3 w ws hw ih =>
    simp only [write_dsk_bytes, hw, if_false, Option.bind_eq_bind,
      Option.bind_eq_some] at h
    obtain ⟨b1, hb1, hbs⟩ := h
    simp at hbs
    subst hbs
    have hmd : w % 256 + 256 * (w / 256) = w := Nat.mod_add_div w 256
    simp [byte_buffer_to_word_buffer, hmd, hw, ih b1 hb1]

/-- Helper: decoding a byte string of 8-bit bytes and re-encoding the words
reproduces the byte string (decode succeeding means every assembled word
passed the 12-bit check). -/
lemma byte_buffer_to_word_buffer_sound (bs ws : List Nat)
    (hb : ∀ b ∈ bs, b < 256)
    (h : byte_buffer_to_word_buffer bs = some ws) :
    write_dsk_bytes ws = some bs := by
  induction bs using byte_buffer_to_word_buffer.induct generalizing ws with
  | case1 =>
    simp [byte_buffer_to_word_buffer] at h
    subst h
    simp [write_dsk_bytes]
  | case2 b =>
    simp [byte_buffer_to_word_buffer] at h
  | case3 b0 b1 bs hw =>
    simp [byte_buffer_to_word_buffer, hw] at h
  | case4 b0 b1 bs hw ih =>
    simp only [byte_buffer_to_word_buffer, hw, if_false, Option.bind_eq_bind,
      Option.bind_eq_some] at h
    obtain ⟨ws1, hws1, hws⟩ := h
    simp at hws
    subst hws
    have hb0 : b0 < 256 := hb b0 (by simp)
    have hmod : (b0 + 256 * b1) % 256 = b0 := by
      simp [Nat.add_mul_mod_self_left, Nat.mod_eq_of_lt hb0]
    have hdiv : (b0 + 256 * b1) / 256 = b1 := by
      rw [Nat.add_mul_div_left _ _ (by norm_num : (0:Nat) < 256)]
      simp [Nat.div_eq_of_lt hb0]
    have hrest : ∀ b ∈ bs, b < 256 := fun b hbmem => hb b (by simp [hbmem])
    simp [write_dsk_bytes, hw, hmod, hdiv, ih ws1 hrest hws1]

/-- Helper: RK05 three-byte-per-two-word encode then decode is the identity. -/
lemma write_rka_bytes_sound (ws bs : List Nat)
    (h : write_rka_bytes ws = some bs) : read_rka_words bs = ws := by
  induction ws using write_rka_bytes.induct generalizing bs with
  | case1 =>
    simp [write_rka_bytes] at h
    subst h
    simp [read_rka_words]
  | case2 w =>
    simp [write_rka_bytes] at h
  | case3 w1 w2 ws hw =>
    simp [write_rka_bytes, hw] at h
  | case4 w1 w2 ws hw ih =>
    have hw1 : w1 < 4096 := by omega
    have hw2 : w2 < 4096 := by omega
    simp only [write_rka_bytes, hw, if_false, Option.bind_eq_bind,
      Option.bind_eq_some] at h
    obtain ⟨b1, hb1, hbs⟩ := h
    simp at hbs
    subst hbs
    have e2 : (w1 % 16 * 16 + w2 / 256) / 16 = w1 % 16 := by omega
    have e3 : (w1 % 16 * 16 + w2 / 256) % 16 = w2 / 256 := by omega
    have e1 : w1 / 16 * 16 + w1 % 16 = w1 := by omega
    have e4 : w2 / 256 * 256 + w2 % 256 = w2 := by omega
    simp [read_rka_words, e1, e2, e3, e4, ih b1 hb1]

/-- Helper: RK05 decode of 8-bit bytes (a multiple of three long) then encode
is the identity; the decoded words are automatically 12-bit. -/
lemma read_rka_words_sound (bs : List Nat)
    (hb : ∀ b ∈ bs, b < 256) (hl : bs.length % 3 = 0) :
    write_rka_bytes (read_rka_words bs) = some bs := by
  induction bs using read_rka_words.induct with
  | case1 c1 c2 c3 bs ih =>
    have hc1 : c1 < 256 := hb c1 (by simp)
    have hc2 : c2 < 256 := hb c2 (by simp)
    have hc3 : c3 < 256 := hb c3 (by simp)
    have hrest : ∀ b ∈ bs, b < 256 := fun b hm => hb b (by simp [hm])
    have hlrest : bs.length % 3 = 0 := by
      simp [List.length_cons] at hl
      omega
    have e1 : (c1 * 16 + c2 / 16) / 16 = c1 := by omega
    have e2 : (c1 * 16 + c2 / 16) % 16 = c2 / 16 := by omega
    have e3 : (c2 % 16 * 256 + c3) / 256 = c2 % 16 := by omega
    have e4 : (c2 % 16 * 256 + c3) % 256 = c3 := by omega
    have e5 : c2 / 16 * 16 + c2 % 16 = c2 := by omega
    simp [read_rka_words, write_rka_bytes,
      if_neg (by omega : ¬(4096 ≤ c1 * 16 + c2 / 16 ∨ 4096 ≤ c2 % 16 * 256 + c3)),
      e1, e2, e3, e4, e5, ih hrest hlrest]
  | case2 bs h1 =>
    match bs, hl with
    | [], _ => simp [read_rka_words, write_rka_bytes]
    | [c], hl => simp at hl
    | [c1, c2], hl => simp at hl
    | c1 :: c2 :: c3 :: bs, _ => exact absurd rfl (h1 c1 c2 c3 bs)

/-- Helper: a list prefix of known length splits an append under `take`. -/
lemma take_append_of_length (l1 l2 : List Nat) (n : Nat) (h : l1.length = n) :
    (l1 ++ l2).take n = l1 := by
  subst h
  simp

/-- Helper: a list prefix of known length splits an append under `drop`. -/
lemma drop_append_of_length (l1 l2 : List Nat) (n : Nat) (h : l1.length = n) :
    (l1 ++ l2).drop n = l2 := by
  subst h
  simp

/-- C5: Codec round-trip.  For every block of 256 words each in range
0..4095, encoding then decoding under the same packing discipline
(two-byte-per-word `write_dsk_block`/`byte_buffer_to_word_buffer`, DECtape
129-word `write_dectape_block`/`read_dectape_block`, three-byte-per-two-word
`write_rka_block`/`read_rka_block`) is the identity — stated as: whenever
the encoder succeeds (it succeeds exactly when every word passes the 12-bit
check) the decoder returns the original block.  Conversely, for every byte
string of 8-bit bytes respecting the packing's bit constraints (stated as:
the decoder accepts it), decoding then encoding is the identity, modulo the
DECtape ignored trailing word, which is always written back as zero
(`dectape_zero_ignored`). -/
theorem c5_codec_round_trip :
    (∀ ws bs, write_dsk_bytes ws = some bs →
        byte_buffer_to_word_buffer bs = some ws) ∧
    (∀ bs ws, (∀ b ∈ bs, b < 256) → byte_buffer_to_word_buffer bs = some ws →
        write_dsk_bytes ws = some bs) ∧
    (∀ ws bs, ws.length = 256 → write_dectape_bytes ws = some bs →
        read_dectape_words bs = some ws) ∧
    (∀ bs ws, (∀ b ∈ bs, b < 256) → bs.length = 516 →
        read_dectape_words bs = some ws →
        write_dectape_bytes ws = some (dectape_zero_ignored bs)) ∧
    (∀ ws bs, write_rka_bytes ws = some bs → read_rka_words bs = ws) ∧
    (∀ bs, (∀ b ∈ bs, b < 256) → bs.length % 3 = 0 →
        write_rka_bytes (read_rka_words bs) = some bs) := by
  refine ⟨write_dsk_bytes_sound, fun bs ws hb h => byte_buffer_to_word_buffer_sound bs ws hb h,
    ?_, ?_, write_rka_bytes_sound, read_rka_words_sound⟩
  · intro ws bs hlen h
    simp only [write_dectape_bytes, Option.bind_eq_bind, Option.bind_eq_some] at h
    obtain ⟨b1, hb1, h⟩ := h
    obtain ⟨b2, hb2, h⟩ := h
    simp at h
    subst h
    have hb1len : b1.length = 256 := by
      have := write_dsk_bytes_length _ _ hb1
      simp [List.length_take, hlen] at this
      omega
    have hb2len : b2.length = 256 := by
      have := write_dsk_bytes_length _ _ hb2
      simp [List.length_drop, hlen] at this
      omega
    have htake : (b1 ++ 0 :: 0 :: (b2 ++ [0, 0])).take 256 = b1 :=
      take_append_of_length _ _ _ hb1len
    have hdrop : (b1 ++ 0 :: 0 :: (b2 ++ [0, 0])).drop 258 = b2 ++ [0, 0] := by
      have hshape : b1 ++ 0 :: 0 :: (b2 ++ [0, 0]) = (b1 ++ [0, 0]) ++ (b2 ++ [0, 0]) := by
        simp
      rw [hshape]
      exact drop_append_of_length _ _ _ (by simp [hb1len])
    have htake2 : (b2 ++ [0, 0]).take 256 = b2 := take_append_of_length _ _ _ hb2len
    simp only [read_dectape_words, htake, hdrop, htake2]
    rw [byte_buffer_to_word_buffer_append b1 (ws.take 128) b2
      (write_dsk_bytes_sound _ _ hb1)]
    rw [write_dsk_bytes_sound _ _ hb2]
    simp
  · intro bs ws hb hlen h
    simp only [read_dectape_words] at h
    have hcb : ∀ b ∈ bs.take 256 ++ (bs.drop 258).take 256, b < 256 := by
      intro b hm
      rcases List.mem_append.mp hm with hm1 | hm2
      · exact hb b (List.take_subset _ _ hm1)
      · exact hb b (List.drop_subset _ _ (List.take_subset _ _ hm2))
    have hcorelen : (bs.take 256 ++ (bs.drop 258).take 256).length = 512 := by
      simp [List.length_take, List.length_drop, hlen]
    have hwslen : ws.length = 256 := by
      have := byte_buffer_to_word_buffer_length _ _ h
      omega
    have hcore := byte_buffer_to_word_buffer_sound _ _ hcb h
    have hsplit : ws = ws.take 128 ++ ws.drop 128 := (List.take_append_drop _ _).symm
    rw [hsplit, write_dsk_bytes_append] at hcore
    cases hc1 : write_dsk_bytes (ws.take 128) with
    | none => rw [hc1] at hcore; simp at hcore
    | some c1 =>
      cases hc2 : write_dsk_bytes (ws.drop 128) with
      | none => rw [hc1, hc2] at hcore; simp at hcore
      | some c2 =>
        rw [hc1, hc2] at hcore
        simp at hcore
        have hc1len : c1.length = 256 := by
          have := write_dsk_bytes_length _ _ hc1
          simp [List.length_take, hwslen] at this
          omega
        have hparts : bs.take 256 = c1 ∧ (bs.drop 258).take 256 = c2 := by
          apply List.append_inj hcore.symm
          simp [List.length_take, hlen, hc1len]
        simp only [write_dectape_bytes, hc1, hc2, Option.bind_eq_bind,
          Option.some_bind, dectape_zero_ignored, hparts.1, hparts.2]

/-- Helper: `host_bytes_to_words` halves the length (trailing odd byte
dropped). -/
lemma host_bytes_to_words_length (H : List Nat) :
    (host_bytes_to_words H).length = H.length / 2 := by
  induction H using host_bytes_to_words.induct with
  | case1 b0 b1 bs ih =>
    simp [host_bytes_to_words, ih]
    omega
  | case2 t h1 =>
    match t, h1 with
    | [], _ => simp [host_bytes_to_words]
    | [b], _ => simp [host_bytes_to_words]
    | b0 :: b1 :: bs, h1 => exact absurd rfl (h1 b0 b1 bs)

/-- Helper: serializing words to host bytes distributes over append. -/
lemma os8_words_to_host_bytes_append (xs ys : List Nat) :
    os8_words_to_host_bytes (xs ++ ys) =
      os8_words_to_host_bytes xs ++ os8_words_to_host_bytes ys := by
  induction xs with
  | nil => simp [os8_words_to_host_bytes]
  | cons w xs ih => simp [os8_words_to_host_bytes, ih]

/-- Helper: serializing zero words yields zero bytes. -/
lemma os8_words_to_host_bytes_replicate (m : Nat) :
    os8_words_to_host_bytes (List.replicate m 0) = List.replicate (2 * m) 0 := by
  induction m with
  | zero => simp [os8_words_to_host_bytes]
  | succ m ih =>
    have h2 : 2 * (m + 1) = (2 * m) + 1 + 1 := by omega
    simp [List.replicate_succ, os8_words_to_host_bytes, ih, h2]

/-- Helper: serialization doubles the length. -/
lemma os8_words_to_host_bytes_length (ws : List Nat) :
    (os8_words_to_host_bytes ws).length = 2 * ws.length := by
  induction ws with
  | nil => simp [os8_words_to_host_bytes]
  | cons w ws ih =>
    simp [os8_words_to_host_bytes, ih]
    omega

/-- Helper: for an even-length stream of 8-bit bytes, assembling `fread`
words and serializing them back is the identity. -/
lemma os8_words_to_host_bytes_of_pairs (H : List Nat)
    (hb : ∀ b ∈ H, b < 256) (he : H.length % 2 = 0) :
    os8_words_to_host_bytes (host_bytes_to_words H) = H := by
  induction H using host_bytes_to_words.induct with
  | case1 b0 b1 bs ih =>
    have hb0 : b0 < 256 := hb b0 (by simp)
    have hb1 : b1 < 256 := hb b1 (by simp)
    have hrest : ∀ b ∈ bs, b < 256 := fun b hm => hb b (by simp [hm])
    have herest : bs.length % 2 = 0 := by
      simp [List.length_cons] at he
      omega
    have hmod : (b0 + 256 * b1) % 256 = b0 := by
      simp [Nat.add_mul_mod_self_left, Nat.mod_eq_of_lt hb0]
    have hdiv : (b0 + 256 * b1) / 256 % 256 = b1 := by
      rw [Nat.add_mul_div_left _ _ (by norm_num : (0:Nat) < 256)]
      simp [Nat.div_eq_of_lt hb0, Nat.mod_eq_of_lt hb1]
    simp [host_bytes_to_words, os8_words_to_host_bytes, hmod, hdiv,
      ih hrest herest]
  | case2 t h1 =>
    match t, he, h1 with
    | [], _, _ => simp [host_bytes_to_words, os8_words_to_host_bytes]
    | [b], he, _ => simp at he
    | b0 :: b1 :: bs, _, h1 => exact absurd rfl (h1 b0 b1 bs)

/-- Helper: when every `fread` word is 12-bit each iteration of the
streaming loop succeeds, and the blocks written are the word stream
zero-padded to a whole block, `⌈words/256⌉` blocks in all. -/
lemma stream_host_image_loop_ok (fuel : Nat) : ∀ ws : List Nat,
    ws.length ≤ fuel → (∀ w ∈ ws, w < 4096) →
    ∃ blocks, stream_host_image_loop fuel ws = some blocks ∧
      blocks.flatten = ws ++ List.replicate ((256 - ws.length % 256) % 256) 0 ∧
      blocks.length = (ws.length + 255) / 256 := by
  induction fuel with
  | zero =>
    intro ws hfuel h
    have hnil : ws = [] := List.eq_nil_of_length_eq_zero (by omega)
    subst hnil
    exact ⟨[], rfl, by decide, by decide⟩
  | succ fuel ih =>
    intro ws hfuel h
    match ws with
    | [] => exact ⟨[], rfl, by decide, by decide⟩
    | w :: ws =>
      have hcond : ((w :: ws).take 256 ++
          List.replicate (256 - ((w :: ws).take 256).length) 0).all (· < 4096) = true := by
        rw [List.all_eq_true]
        intro x hx
        rcases List.mem_append.mp hx with hx1 | hx2
        · exact decide_eq_true (h x (List.take_subset _ _ hx1))
        · have hx0 : x = 0 := List.eq_of_mem_replicate hx2
          subst hx0
          decide
      have hdl : ((w :: ws).drop 256).length = (w :: ws).length - 256 := by simp
      have hsub : ∀ x ∈ (w :: ws).drop 256, x < 4096 :=
        fun x hx => h x (List.drop_subset _ _ hx)
      have hfuel2 : ((w :: ws).drop 256).length ≤ fuel := by
        rw [hdl]
        simp only [List.length_cons] at hfuel ⊢
        omega
      obtain ⟨blocks, hs, hf, hl⟩ := ih ((w :: ws).drop 256) hfuel2 hsub
      refine ⟨((w :: ws).take 256 ++
          List.replicate (256 - ((w :: ws).take 256).length) 0) :: blocks, ?_, ?_, ?_⟩
      · simp only [stream_host_image_loop, hcond, if_true, hs]
        rfl
      · simp only [List.flatten_cons, hf]
        by_cases hn : (w :: ws).length ≤ 256
        · have hdropnil : (w :: ws).drop 256 = [] := List.drop_eq_nil_of_le hn
          have htake : (w :: ws).take 256 = w :: ws := List.take_of_length_le hn
          have h1 : 1 ≤ (w :: ws).length := by simp
          have hp : (256 - (w :: ws).length % 256) % 256 = 256 - (w :: ws).length := by
            omega
          rw [htake, hdropnil, List.append_assoc, hp]
          simp
        · push_neg at hn
          have htlen : ((w :: ws).take 256).length = 256 := by
            simp only [List.length_take, List.length_cons]
            simp only [List.length_cons] at hn
            omega
          rw [htlen]
          simp only [Nat.sub_self, List.replicate_zero, List.append_nil]
          rw [← List.append_assoc, List.take_append_drop]
          congr 2
          rw [hdl]
          omega
      · have hlen2 := hl
        rw [hdl] at hlen2
        simp only [List.length_cons] at hlen2 ⊢
        omega

/-- Helper: the streaming entry point run with fuel `ws.length`. -/
lemma stream_host_image_blocks_ok (ws : List Nat) (h : ∀ w ∈ ws, w < 4096) :
    ∃ blocks, stream_host_image_blocks ws = some blocks ∧
      blocks.flatten = ws ++ List.replicate ((256 - ws.length % 256) % 256) 0 ∧
      blocks.length = (ws.length + 255) / 256 :=
  stream_host_image_loop_ok ws.length ws le_rfl h

/-- C1 counterexample: the claim fails as stated.  For the 1-byte host file
`[65]`, `output_size = (1 + 510) / 512 = 0`; `fread` with item size 2
returns no items, no block is written, the file is committed with 0 blocks
and copy-from yields 0 bytes — not a 512-byte file starting with byte 65
(`⌈1/512⌉·512 = 512`).  For the 2-byte host file `[0, 16]` the assembled
word is `0x1000`, the 12-bit check fails and the copy aborts, so no file is
produced at all. -/
theorem c1_binary_round_trip_counterexample :
    image_round_trip [65] = some [] ∧
    ([] : List Nat).length ≠ (1 + 511) / 512 * 512 ∧
    image_round_trip [0, 16] = none := by
  refine ⟨by decide, by decide, by decide⟩

/-- C1 (amended): binary round-trip holds for host byte strings of even
length N whose 16-bit little-endian words are all 12-bit (these are exactly
the inputs every word of which passes `write_block`'s check; an odd trailing
byte is dropped by `fread` and a word `≥ 4096` aborts the copy): copy-to-
image followed by copy-from-image of the same name yields a host file of
length `⌈N/512⌉·512` whose first N bytes equal the input. -/
theorem c1_binary_round_trip (H : List Nat) (hb : ∀ b ∈ H, b < 256)
    (heven : H.length % 2 = 0)
    (hw : ∀ w ∈ host_bytes_to_words H, w < 4096) :
    ∃ out, image_round_trip H = some out ∧
      out.length = (H.length + 511) / 512 * 512 ∧
      out.take H.length = H := by
  obtain ⟨blocks, hs, hf, hbl⟩ := stream_host_image_blocks_ok (host_bytes_to_words H) hw
  refine ⟨os8_words_to_host_bytes blocks.flatten, ?_, ?_, ?_⟩
  · simp [image_round_trip, hs]
  · rw [os8_words_to_host_bytes_length, hf]
    simp only [List.length_append, List.length_replicate, host_bytes_to_words_length]
    omega
  · rw [hf, os8_words_to_host_bytes_append,
      os8_words_to_host_bytes_of_pairs H hb heven,
      os8_words_to_host_bytes_replicate]
    exact take_append_of_length _ _ _ rfl

/-- Witness for C1: a concrete 2-byte host file `[65, 1]` (word `0x141`)
round-trips to a 512-byte host file starting with those two bytes. -/
theorem c1_binary_round_trip_witness :
    (∀ b ∈ [65, 1], b < 256) ∧ [65, 1].length % 2 = 0 ∧
    (∀ w ∈ host_bytes_to_words [65, 1], w < 4096) ∧
    ∃ out, image_round_trip [65, 1] = some out ∧
      out.length = ([65, 1].length + 511) / 512 * 512 ∧
      out.take [65, 1].length = [65, 1] :=
  ⟨by decide, by decide, by decide,
    c1_binary_round_trip [65, 1] (by decide) (by decide) (by decide)⟩

set_option maxRecDepth 40000 in
/-- Witness for C5: the all-zero 256-word block and the all-zero byte
strings round-trip concretely under all three packings. -/
theorem c5_codec_round_trip_witness :
    byte_buffer_to_word_buffer (List.replicate 512 0) = some (List.replicate 256 0) ∧
    write_dsk_bytes (List.replicate 256 0) = some (List.replicate 512 0) ∧
    read_dectape_words (List.replicate 516 0) = some (List.replicate 256 0) ∧
    write_dectape_bytes (List.replicate 256 0) =
      some (dectape_zero_ignored (List.replicate 516 0)) ∧
    read_rka_words (List.replicate 384 0) = List.replicate 256 0 ∧
    write_rka_bytes (read_rka_words (List.replicate 384 0)) =
      some (List.replicate 384 0) := by
  refine ⟨?_, ?_, ?_, ?_, ?_, ?_⟩
  · exact c5_codec_round_trip.1 (List.replicate 256 0) (List.replicate 512 0) (by decide)
  · exact c5_codec_round_trip.2.1 (List.replicate 512 0) (List.replicate 256 0)
      (by decide) (by decide)
  · exact c5_codec_round_trip.2.2.1 (List.replicate 256 0) (List.replicate 516 0)
      (by decide) (by decide)
  · exact c5_codec_round_trip.2.2.2.1 (List.replicate 516 0) (List.replicate 256 0)
      (by decide) (by decide) (by decide)
  · exact c5_codec_round_trip.2.2.2.2.1 (List.replicate 256 0) (List.replicate 384 0)
      (by decide)
  · exact c5_codec_round_trip.2.2.2.2.2 (List.replicate 384 0) (by decide) (by decide)

/-- Helper: on 7-bit input whose only control-Z (if any) is the final byte,
the emitted character stream matches the claim's description. -/
lemma stream_host_text_chars_eq (H : List Nat)
    (hb : ∀ b ∈ H, b < 128) (hz : 26 ∉ H.dropLast) :
    stream_host_text_chars H =
      (H.flatMap fun c =>
        (if c = 10 then [141] else []) ++ (if c ≠ 0 then [c + 128] else [])) ++
      (if H.getLast? = some 26 then [] else [154]) := by
  induction H with
  | nil => simp [stream_host_text_chars]
  | cons c rest ih =>
    have hc : c < 128 := hb c (by simp)
    have hc255 : c ≠ 255 := by omega
    have hmark : os8_mark_char c = c + 128 := by simp [os8_mark_char, hc]
    by_cases h26 : c = 26
    · subst h26
      match rest with
      | [] => simp [stream_host_text_chars, os8_mark_char]
      | r :: rest2 =>
        exfalso
        apply hz
        rw [List.dropLast_cons₂]
        simp
    · match rest with
      | [] =>
        simp [stream_host_text_chars, hc255, h26, hmark]
      | r :: rest2 =>
        have hbrest : ∀ b ∈ r :: rest2, b < 128 := fun b hm => hb b (by simp [hm])
        have hzrest : 26 ∉ (r :: rest2).dropLast := by
          intro hmem
          apply hz
          rw [List.dropLast_cons₂]
          simp [hmem]
        have hresteq := ih hbrest hzrest
        have hstep : stream_host_text_chars (c :: r :: rest2) =
            (if c = 10 then [141] else []) ++
            (if c ≠ 0 then [os8_mark_char c] else []) ++
            stream_host_text_chars (r :: rest2) := by
          simp [stream_host_text_chars, hc255, h26]
        rw [hstep, hresteq, hmark, List.getLast?_cons_cons]
        simp [List.append_assoc]

/-- C8 counterexample: the claim fails as stated on an input with an
interior control-Z.  For host input `[0x61, 0x1A, 0x62]` the loop stops
after processing the 0x1A, so the byte 0x62 is never emitted (and an 0x0A
after an interior 0x1A would get no 0x8D); the claimed packing emits it
and then appends 0x9A because the input does not end with 0x1A. -/
theorem c8_text_encode_counterexample :
    stream_host_text_words [97, 26, 98] = [225, 154] ∧
    text_encode_claimed [97, 26, 98] = [3809, 666, 154, 0] ∧
    stream_host_text_words [97, 26, 98] ≠ text_encode_claimed [97, 26, 98] := by
  refine ⟨by decide, by decide, by decide⟩

/-- C8 (amended): for every host input stream of 7-bit bytes in which a
0x1A occurs at most as the final byte, the packed words produced by
`stream_host_text_file` contain, in order, one 0x8D inserted before every
0x0A of the input, every emitted (nonzero) input character with the mark
bit 0x80 set, a trailing 0x9A appended whenever the input does not end
with 0x1A, and zero padding of the final partial three-character group.
(Input from the first interior 0x1A on is discarded by the loop; bytes
≥ 0x80 are perturbed by the signed-`char` handling, 0xFF acting as EOF.) -/
theorem c8_text_encode (H : List Nat)
    (hb : ∀ b ∈ H, b < 128) (hz : 26 ∉ H.dropLast) :
    stream_host_text_words H = text_encode_claimed H := by
  rw [stream_host_text_words, text_encode_claimed, stream_host_text_chars_eq H hb hz]

/-- Witness for C8: the 4-byte host text `"foo\n"` concretely satisfies the
amended claim's hypotheses and packing equality. -/
theorem c8_text_encode_witness :
    (∀ b ∈ [102, 111, 111, 10], b < 128) ∧
    26 ∉ [102, 111, 111, 10].dropLast ∧
    stream_host_text_words [102, 111, 111, 10] =
      text_encode_claimed [102, 111, 111, 10] :=
  ⟨by decide, by decide, c8_text_encode [102, 111, 111, 10] (by decide) (by decide)⟩

/-- Helper: reading back the just-set position. -/
lemma getD_set_self (l : List Nat) (i v : Nat) (h : i < l.length) :
    (l.set i v).getD i 0 = v := by
  simp [List.getD, List.getElem?_set_self, h]

/-- Helper: reading any other position after a set. -/
lemma getD_set_of_ne (l : List Nat) (i j v : Nat) (h : i ≠ j) :
    (l.set i v).getD j 0 = l.getD j 0 := by
  simp [List.getD, List.getElem?_set_ne, h]

/-- Helper: the downward shuffle loop preserves the block length. -/
lemma shuffle_words_down_loop_length (n : Nat) :
    ∀ (data : List Nat) (src dst : Nat),
    (shuffle_words_down_loop n data src dst).length = data.length := by
  induction n with
  | zero => intro data src dst; rw [shuffle_words_down_loop]
  | succ n ih =>
    intro data src dst
    rw [shuffle_words_down_loop, ih]
    simp [List.length_set]

/-- Helper: the upward shuffle loop preserves the block length. -/
lemma shuffle_words_up_loop_length (n : Nat) :
    ∀ (data : List Nat) (src dst : Nat),
    (shuffle_words_up_loop n data src dst).length = data.length := by
  induction n with
  | zero => intro data src dst; rw [shuffle_words_up_loop]
  | succ n ih =>
    intro data src dst
    rw [shuffle_words_up_loop, ih]
    simp [List.length_set]

/-- Helper: pointwise description of the downward shuffle: positions
`dst ≤ i < dst + n` receive the word `src - dst` places above, all other
positions (including the duplicated tail) keep their values. -/
lemma shuffle_words_down_loop_getD (n : Nat) :
    ∀ (data : List Nat) (src dst i : Nat), dst ≤ src → src + n ≤ data.length →
    (shuffle_words_down_loop n data src dst).getD i 0 =
      if dst ≤ i ∧ i < dst + n then data.getD (i + (src - dst)) 0
      else data.getD i 0 := by
  induction n with
  | zero =>
    intro data src dst i hds hlen
    rw [shuffle_words_down_loop, if_neg (by omega)]
  | succ n ih =>
    intro data src dst i hds hlen
    rw [shuffle_words_down_loop]
    rw [ih (data.set dst (data.getD src 0)) (src + 1) (dst + 1) i (by omega)
      (by simp only [List.length_set]; omega)]
    by_cases hi : i = dst
    · subst hi
      rw [if_neg (by omega), if_pos (by omega)]
      rw [getD_set_self _ _ _ (by omega)]
      congr 1
      omega
    · by_cases hin : dst + 1 ≤ i ∧ i < dst + 1 + n
      · rw [if_pos hin, if_pos (by omega)]
        rw [getD_set_of_ne _ _ _ _ (by omega)]
        congr 1
        omega
      · rw [if_neg hin, if_neg (by omega)]
        exact getD_set_of_ne _ _ _ _ (by omega)

/-- Helper: the upward shuffle writes only positions `> dst - n`, so lower
positions are untouched. -/
lemma shuffle_words_up_loop_getD_low (n : Nat) :
    ∀ (data : List Nat) (src dst j : Nat), j + n ≤ dst →
    (shuffle_words_up_loop n data src dst).getD j 0 = data.getD j 0 := by
  induction n with
  | zero => intro data src dst j h; rw [shuffle_words_up_loop]
  | succ n ih =>
    intro data src dst j h
    rw [shuffle_words_up_loop]
    rw [ih _ (src - 1) (dst - 1) j (by omega)]
    exact getD_set_of_ne _ _ _ _ (by omega)

/-- Helper: `negate` is an involution on 12-bit words. -/
lemma negate_negate (w : Nat) (h : w < 4096) : negate (negate w) = w := by
  simp only [negate]
  omega

/-- C4: Deletion frame effect.  For a present entry of word length
`L = 5 + negate(additional_words) ≥ 5` at word index `idx ≥ 5` of a
256-word segment whose length word (a 12-bit word) sits at `idx + L - 1`,
`delete_entry` overwrites the entry with a two-word empty marker — a zero
flag word and the unchanged negative length word — shifts the trailing
words of the segment down by `L - 2` positions, and leaves the
`number_files` (index 0) and `first_file_block` (index 1) header words
unchanged. -/
theorem c4_delete_entry_frame (data : List Nat) (idx L : Nat)
    (hlen : data.length = 256) (hidx : 5 ≤ idx) (hL : 5 ≤ L)
    (hend : idx + L ≤ 256) (hw : data.getD (idx + L - 1) 0 < 4096) :
    (delete_entry_words data idx L).getD 0 0 = data.getD 0 0 ∧
    (delete_entry_words data idx L).getD 1 0 = data.getD 1 0 ∧
    (delete_entry_words data idx L).getD idx 0 = 0 ∧
    (delete_entry_words data idx L).getD (idx + 1) 0 = data.getD (idx + L - 1) 0 ∧
    (∀ i, idx + 2 ≤ i → i + (L - 2) < 256 →
      (delete_entry_words data idx L).getD i 0 = data.getD (i + (L - 2)) 0) := by
  have hd0len : (shuffle_words_down data (idx + L) (idx + 2)).length = 256 := by
    rw [shuffle_words_down, shuffle_words_down_loop_length, hlen]
  have hd0 : ∀ i, (shuffle_words_down data (idx + L) (idx + 2)).getD i 0 =
      if idx + 2 ≤ i ∧ i < idx + 2 + (data.length - (idx + L)) then
        data.getD (i + (idx + L - (idx + 2))) 0
      else data.getD i 0 := by
    intro i
    rw [shuffle_words_down]
    exact shuffle_words_down_loop_getD _ data _ _ i (by omega) (by omega)
  have hfixne : ∀ j, j ≠ 3 →
      (fix_segment_down data idx L 2).getD j 0 =
        (shuffle_words_down data (idx + L) (idx + 2)).getD j 0 := by
    intro j hj
    simp only [fix_segment_down]
    split
    · exact getD_set_of_ne _ _ _ _ (fun h => hj h.symm)
    · rfl
  have hfixlen : (fix_segment_down data idx L 2).length = 256 := by
    simp only [fix_segment_down]
    split
    · simp [List.length_set, hd0len]
    · exact hd0len
  have hr : delete_entry_words data idx L =
      ((fix_segment_down data idx L 2).set idx 0).set (idx + 1)
        (negate (negate (data.getD (idx + L - 1) 0))) := by
    simp only [delete_entry_words]
  have hsetlen : ((fix_segment_down data idx L 2).set idx 0).length = 256 := by
    simp [List.length_set, hfixlen]
  refine ⟨?_, ?_, ?_, ?_, ?_⟩
  · rw [hr, getD_set_of_ne _ _ _ _ (by omega), getD_set_of_ne _ _ _ _ (by omega),
      hfixne 0 (by omega), hd0 0, if_neg (by omega)]
  · rw [hr, getD_set_of_ne _ _ _ _ (by omega), getD_set_of_ne _ _ _ _ (by omega),
      hfixne 1 (by omega), hd0 1, if_neg (by omega)]
  · rw [hr, getD_set_of_ne _ _ _ _ (by omega)]
    exact getD_set_self _ _ _ (by omega)
  · rw [hr, getD_set_self _ _ _ (by omega)]
    exact negate_negate _ hw
  · intro i hi1 hi2
    rw [hr, getD_set_of_ne _ _ _ _ (by omega), getD_set_of_ne _ _ _ _ (by omega),
      hfixne i (by omega), hd0 i, if_pos (by omega)]
    congr 1
    omega

/-- Witness for C4: deleting the length-5 entry at index 5 of a concrete
uniform segment. -/
theorem c4_delete_entry_frame_witness :
    (delete_entry_words (List.replicate 256 7) 5 5).getD 0 0 =
      (List.replicate 256 7 : List Nat).getD 0 0 ∧
    (delete_entry_words (List.replicate 256 7) 5 5).getD 1 0 =
      (List.replicate 256 7 : List Nat).getD 1 0 ∧
    (delete_entry_words (List.replicate 256 7) 5 5).getD 5 0 = 0 ∧
    (delete_entry_words (List.replicate 256 7) 5 5).getD (5 + 1) 0 =
      (List.replicate 256 7 : List Nat).getD (5 + 5 - 1) 0 ∧
    (∀ i, 5 + 2 ≤ i → i + (5 - 2) < 256 →
      (delete_entry_words (List.replicate 256 7) 5 5).getD i 0 =
        (List.replicate 256 7 : List Nat).getD (i + (5 - 2)) 0) :=
  c4_delete_entry_frame (List.replicate 256 7) 5 5 (List.length_replicate 256 7)
    (by omega) (by omega) (by omega) (by decide)

/-- C7 counterexample: the claim fails as stated when the flag word refers
exactly *at* the insertion point.  With `flag_word = 0o1405` (referring to
offset 5) and the insertion point at word index 5, shifting up by 6 should,
per the claim ("at or beyond"), give `0o1405 + 6 = 0o1413 = 779`; the code
compares with strict `>` and leaves the flag at `0o1405 = 773`. -/
theorem c7_flag_adjust_counterexample :
    (fix_segment_up ((List.replicate 256 1).set 3 773) 5 6 7).getD 3 0 = 773 ∧
    (773 : Nat) ≠ 0 ∧ (773 : Nat) - 0o1400 = 5 ∧ (773 : Nat) + 6 ≤ 0o1777 ∧
    (773 : Nat) ≠ 773 + 6 := by
  refine ⟨by decide, by decide, by decide, by decide, by decide⟩

/-- C7 (amended): when `enter` shifts segment words upward to make room
(`fix_segment_up(entry, new_entry_length, unused_ptr)`, os8pip.c:907), the
segment's `flag_word`, if nonzero and referring to a position *strictly*
beyond the insertion point, is increased by the shift delta and cleared to
0 when the increased value would exceed 0o1777; a nonzero `flag_word`
referring to a position at or before the insertion point is unchanged. -/
theorem c7_flag_adjust (data : List Nat) (entryIdx offset firstIdx : Nat)
    (hlen : data.length = 256) (hidx : 5 ≤ entryIdx)
    (hfi : entryIdx ≤ firstIdx) :
    (data.getD 3 0 ≠ 0 → 0o1400 + entryIdx < data.getD 3 0 →
      (fix_segment_up data entryIdx offset firstIdx).getD 3 0 =
        if 0o1777 < data.getD 3 0 + offset then 0 else data.getD 3 0 + offset) ∧
    (data.getD 3 0 ≤ 0o1400 + entryIdx →
      (fix_segment_up data entryIdx offset firstIdx).getD 3 0 = data.getD 3 0) := by
  have hflag : (shuffle_words_up data firstIdx (firstIdx + offset) entryIdx).getD 3 0 =
      data.getD 3 0 := by
    rw [shuffle_words_up]
    exact shuffle_words_up_loop_getD_low _ data _ _ 3 (by omega)
  have hslen : (shuffle_words_up data firstIdx (firstIdx + offset) entryIdx).length = 256 := by
    rw [shuffle_words_up, shuffle_words_up_loop_length, hlen]
  constructor
  · intro h0 hbeyond
    simp only [fix_segment_up, hflag]
    rw [if_pos ⟨h0, hbeyond⟩]
    rw [getD_set_self _ _ _ (by omega)]
  · intro hle
    simp only [fix_segment_up, hflag]
    rw [if_neg (by omega)]
    exact hflag

/-- Witness for C7: a concrete segment with `flag_word = 780` (offset 12,
strictly beyond the insertion point at index 5) gets its flag increased by
the shift delta 6, and a concrete flag at the insertion point stays put. -/
theorem c7_flag_adjust_witness :
    (((List.replicate 256 1).set 3 780 : List Nat).getD 3 0 ≠ 0 →
      0o1400 + 5 < ((List.replicate 256 1).set 3 780 : List Nat).getD 3 0 →
      (fix_segment_up ((List.replicate 256 1).set 3 780) 5 6 7).getD 3 0 =
        if 0o1777 < ((List.replicate 256 1).set 3 780 : List Nat).getD 3 0 + 6 then 0
        else ((List.replicate 256 1).set 3 780 : List Nat).getD 3 0 + 6) ∧
    (((List.replicate 256 1).set 3 780 : List Nat).getD 3 0 ≤ 0o1400 + 5 →
      (fix_segment_up ((List.replicate 256 1).set 3 780) 5 6 7).getD 3 0 =
        ((List.replicate 256 1).set 3 780 : List Nat).getD 3 0) :=
  c7_flag_adjust ((List.replicate 256 1).set 3 780) 5 6 7
    (by rw [List.length_set, List.length_replicate]) (by omega) (by omega)

/-- Helper: from a nonzero best, the `get_empty_entry` loop result stays
nonzero and only improves (grows for the largest-fit request, shrinks or
stays for best-fit). -/
lemma gee_loop_mono (ex : Nat × Nat) (len : Nat) :
    ∀ (es : List EntryRef) (best : EntryRef), best.length ≠ 0 →
    (get_empty_entry_loop ex len es best).length ≠ 0 ∧
    (len = 0 → best.length ≤ (get_empty_entry_loop ex len es best).length) ∧
    (0 < len → (get_empty_entry_loop ex len es best).length ≤ best.length) := by
  intro es
  induction es with
  | nil => intro best h; exact ⟨h, fun _ => le_refl _, fun _ => le_refl _⟩
  | cons e es ih =>
    intro best h
    rw [get_empty_entry_loop]
    split
    case isTrue hc =>
      rcases hc.2 with h0 | hcmp
      · exact absurd h0 h
      · by_cases hl : len = 0
        · rw [if_pos hl] at hcmp
          have he : e.length ≠ 0 := by omega
          obtain ⟨h1, h2, h3⟩ := ih e he
          exact ⟨h1, fun hlz => le_trans (by omega) (h2 hlz),
            fun hlp => absurd hlp (by omega)⟩
        · rw [if_neg hl] at hcmp
          have he : e.length ≠ 0 := by
            have := hc.1.2.2
            omega
          obtain ⟨h1, h2, h3⟩ := ih e he
          exact ⟨h1, fun hlz => absurd hlz hl,
            fun hlp => le_trans (h3 hlp) (by omega)⟩
    case isFalse hc => exact ih best h

/-- Helper: if any nonzero-length candidate is in the list, the loop ends
with a nonzero best. -/
lemma gee_loop_found (ex : Nat × Nat) (len : Nat) :
    ∀ (es : List EntryRef) (best e : EntryRef), e ∈ es → gee_candidate ex len e →
      e.length ≠ 0 → (get_empty_entry_loop ex len es best).length ≠ 0 := by
  intro es
  induction es with
  | nil =>
    intro best e he
    simp at he
  | cons a es ih =>
    intro best e he hcand hne
    rw [get_empty_entry_loop]
    rcases List.mem_cons.mp he with rfl | hmem
    · split
      case isTrue hc => exact (gee_loop_mono ex len es e hne).1
      case isFalse hc =>
        have hbest : best.length ≠ 0 := by
          intro hb
          exact hc ⟨hcand, Or.inl hb⟩
        exact (gee_loop_mono ex len es best hbest).1
    · split
      case isTrue hc => exact ih a e hmem hcand hne
      case isFalse hc => exact ih best e hmem hcand hne

/-- Helper: the loop result is optimal among all candidates in the list
(maximal for the largest-fit request, minimal for best-fit). -/
lemma gee_loop_opt (ex : Nat × Nat) (len : Nat) :
    ∀ (es : List EntryRef) (best e : EntryRef), e ∈ es → gee_candidate ex len e →
      (len = 0 → e.length ≤ (get_empty_entry_loop ex len es best).length) ∧
      (0 < len → (get_empty_entry_loop ex len es best).length ≤ e.length) := by
  intro es
  induction es with
  | nil =>
    intro best e he
    simp at he
  | cons a es ih =>
    intro best e he hcand
    rw [get_empty_entry_loop]
    rcases List.mem_cons.mp he with rfl | hmem
    · split
      case isTrue hc =>
        constructor
        · intro hl
          by_cases hez : e.length = 0
          · omega
          · exact (gee_loop_mono ex len es e hez).2.1 hl
        · intro hl
          have hez : e.length ≠ 0 := by
            have := hcand.2.2
            omega
          exact (gee_loop_mono ex len es e hez).2.2 hl
      case isFalse hc =>
        have hb : best.length ≠ 0 := by
          intro h0
          exact hc ⟨hcand, Or.inl h0⟩
        have hrel : (len = 0 → e.length ≤ best.length) ∧
            (0 < len → best.length ≤ e.length) := by
          constructor
          · intro hl
            by_contra hlt
            push_neg at hlt
            exact hc ⟨hcand, Or.inr (by rw [if_pos hl]; omega)⟩
          · intro hl
            by_contra hlt
            push_neg at hlt
            exact hc ⟨hcand, Or.inr (by rw [if_neg (by omega)]; omega)⟩
        obtain ⟨_, m1, m2⟩ := gee_loop_mono ex len es best hb
        exact ⟨fun hl => le_trans (hrel.1 hl) (m1 hl),
          fun hl => le_trans (m2 hl) (hrel.2 hl)⟩
    · split
      case isTrue hc => exact ih a e hmem hcand
      case isFalse hc => exact ih best e hmem hcand

/-- Helper: the loop result is either the initial best or a candidate from
the list. -/
lemma gee_loop_mem (ex : Nat × Nat) (len : Nat) :
    ∀ (es : List EntryRef) (best : EntryRef),
      get_empty_entry_loop ex len es best = best ∨
      (get_empty_entry_loop ex len es best ∈ es ∧
        gee_candidate ex len (get_empty_entry_loop ex len es best)) := by
  intro es
  induction es with
  | nil => intro best; exact Or.inl rfl
  | cons a es ih =>
    intro best
    rw [get_empty_entry_loop]
    split
    case isTrue hc =>
      rcases ih a with heq | ⟨hmem, hcand⟩
      · refine Or.inr ⟨by rw [heq]; simp, ?_⟩
        rw [heq]
        exact hc.1
      · exact Or.inr ⟨by simp [hmem], hcand⟩
    case isFalse hc =>
      rcases ih best with heq | ⟨hmem, hcand⟩
      · exact Or.inl heq
      · exact Or.inr ⟨by simp [hmem], hcand⟩

/-- Helper: from a nonzero best, the loop either keeps the best or strictly
improves on it (comparisons in the loop are strict). -/
lemma gee_loop_strict (ex : Nat × Nat) (len : Nat) :
    ∀ (es : List EntryRef) (best : EntryRef), best.length ≠ 0 →
      get_empty_entry_loop ex len es best = best ∨
      ((len = 0 → best.length < (get_empty_entry_loop ex len es best).length) ∧
       (0 < len → (get_empty_entry_loop ex len es best).length < best.length)) := by
  intro es
  induction es with
  | nil => intro best _; exact Or.inl rfl
  | cons a es ih =>
    intro best hb
    rw [get_empty_entry_loop]
    split
    case isTrue hc =>
      have hstrict : (len = 0 → best.length < a.length) ∧
          (0 < len → a.length < best.length) := by
        rcases hc.2 with h0 | hcmp
        · exact absurd h0 hb
        · constructor
          · intro hl
            rw [if_pos hl] at hcmp
            exact hcmp
          · intro hl
            rw [if_neg (by omega)] at hcmp
            exact hcmp
      have ha : a.length ≠ 0 := by
        by_cases hl : len = 0
        · have := hstrict.1 hl
          omega
        · have := hc.1.2.2
          omega
      rcases ih a ha with heq | ⟨s1, s2⟩
      · right
        rw [heq]
        exact hstrict
      · exact Or.inr ⟨fun hl => lt_trans (hstrict.1 hl) (s1 hl),
          fun hl => lt_trans (s2 hl) (hstrict.2 hl)⟩
    case isFalse hc => exact ih best hb

/-- Helper: a successful loop result is the *first* candidate in the list
that no earlier candidate equals or beats (the strict comparisons keep the
earliest among equally optimal candidates). -/
lemma gee_loop_first (ex : Nat × Nat) (len : Nat) :
    ∀ (es : List EntryRef) (best : EntryRef),
      (get_empty_entry_loop ex len es best).length ≠ 0 →
      get_empty_entry_loop ex len es best = best ∨
      (gee_candidate ex len (get_empty_entry_loop ex len es best) ∧
       ∃ l1 l2, es = l1 ++ get_empty_entry_loop ex len es best :: l2 ∧
         ∀ x ∈ l1, ¬(gee_candidate ex len x ∧
           ((len = 0 ∧ (get_empty_entry_loop ex len es best).length ≤ x.length) ∨
            (0 < len ∧ x.length ≤ (get_empty_entry_loop ex len es best).length)))) := by
  intro es
  induction es with
  | nil => intro best _; exact Or.inl rfl
  | cons a es ih =>
    intro best hr
    by_cases hc : gee_candidate ex len a ∧ gee_improves len a best
    · rw [get_empty_entry_loop, if_pos hc] at hr ⊢
      by_cases hra : get_empty_entry_loop ex len es a = a
      · right
        refine ⟨by rw [hra]; exact hc.1, [], es, by rw [hra]; simp, by simp⟩
      · rcases ih a hr with heq | ⟨hcand, l1, l2, hsplit, hno⟩
        · exact absurd heq hra
        · right
          refine ⟨hcand, a :: l1, l2, ?_, ?_⟩
          · conv_lhs => rw [hsplit]
            simp
          intro x hx
          rcases List.mem_cons.mp hx with rfl | hx1
          · rintro ⟨hca, hgood⟩
            by_cases haz : x.length = 0
            · rcases hgood with ⟨hl, hle⟩ | ⟨hl, hle⟩
              · omega
              · have := hca.2.2
                omega
            · rcases gee_loop_strict ex len es x haz with heq | ⟨s1, s2⟩
              · exact hra heq
              · rcases hgood with ⟨hl, hle⟩ | ⟨hl, hle⟩
                · have := s1 hl
                  omega
                · have := s2 hl
                  omega
          · exact hno x hx1
    · rw [get_empty_entry_loop, if_neg hc] at hr ⊢
      by_cases hrb : get_empty_entry_loop ex len es best = best
      · exact Or.inl hrb
      · rcases ih best hr with heq | ⟨hcand, l1, l2, hsplit, hno⟩
        · exact absurd heq hrb
        · right
          refine ⟨hcand, a :: l1, l2, ?_, ?_⟩
          · conv_lhs => rw [hsplit]
            simp
          intro x hx
          rcases List.mem_cons.mp hx with rfl | hx1
          · rintro ⟨hca, hgood⟩
            have hnimp : ¬gee_improves len x best := fun himp => hc ⟨hca, himp⟩
            have hb : best.length ≠ 0 := fun h0 => hnimp (Or.inl h0)
            have hrel : (len = 0 → x.length ≤ best.length) ∧
                (0 < len → best.length ≤ x.length) := by
              constructor
              · intro hl
                by_contra hlt
                push_neg at hlt
                exact hnimp (Or.inr (by rw [if_pos hl]; omega))
              · intro hl
                by_contra hlt
                push_neg at hlt
                exact hnimp (Or.inr (by rw [if_neg (by omega)]; omega))
            rcases gee_loop_strict ex len es best hb with heq | ⟨s1, s2⟩
            · exact hrb heq
            · rcases hgood with ⟨hl, hle⟩ | ⟨hl, hle⟩
              · have h1 := s1 hl
                have h2 := hrel.1 hl
                omega
              · have h1 := s2 hl
                have h2 := hrel.2 hl
                omega
          · exact hno x hx1

/-- C2 counterexample: the claim fails as stated when the only empty
entries have length zero and L = 0.  In `c2dir` the zero-length empty
entry (segment 0, file number 2) is an empty entry not identical to the
excluded identity, so per the claim the L = 0 request should return it as
the largest empty entry; `get_empty_entry` reports failure instead
(`return best_entry->length != 0`). -/
theorem c2_get_empty_entry_counterexample :
    (get_empty_entry c2dir (99, 0) 0).1 = false ∧
    (⟨true, 0, 0, 2⟩ : EntryRef) ∈ directory_entries c2dir ∧
    ((⟨true, 0, 0, 2⟩ : EntryRef).seg ≠ 99 ∨
      (⟨true, 0, 0, 2⟩ : EntryRef).fileNumber ≠ 0) ∧
    (⟨true, 0, 0, 2⟩ : EntryRef).emptyFile = true ∧
    0 ≤ (⟨true, 0, 0, 2⟩ : EntryRef).length := by
  refine ⟨by decide, by decide, by decide, by decide, by decide⟩

/-- C2 (amended): for every directory, excluded identity and requested
length L, `get_empty_entry` returns, among empty entries of *nonzero*
length not identical to the excluded entry by (segment, file_number), the
largest-length one when L = 0 and a smallest one with length ≥ L when
L > 0, and returns failure when every such candidate has length zero (in
particular when none exists). -/
theorem c2_get_empty_entry (dir : List Segment) (ex : Nat × Nat) (len : Nat) :
    ((get_empty_entry dir ex len).1 = true →
      (get_empty_entry dir ex len).2 ∈ directory_entries dir ∧
      gee_candidate ex len (get_empty_entry dir ex len).2 ∧
      (get_empty_entry dir ex len).2.length ≠ 0 ∧
      (∀ e ∈ directory_entries dir, gee_candidate ex len e →
        (len = 0 → e.length ≤ (get_empty_entry dir ex len).2.length) ∧
        (0 < len → (get_empty_entry dir ex len).2.length ≤ e.length))) ∧
    ((get_empty_entry dir ex len).1 = false →
      ∀ e ∈ directory_entries dir, gee_candidate ex len e → e.length = 0) := by
  simp only [get_empty_entry, bne_iff_ne, bne_eq_false_iff_eq, ne_eq, decide_eq_true_eq,
    decide_eq_false_iff_not, not_not]
  constructor
  · intro hs
    refine ⟨?_, ?_, hs, ?_⟩
    · rcases gee_loop_mem ex len (directory_entries dir) ⟨true, 0, 0, 0⟩ with heq | ⟨hm, _⟩
      · rw [heq] at hs
        simp at hs
      · exact hm
    · rcases gee_loop_mem ex len (directory_entries dir) ⟨true, 0, 0, 0⟩ with heq | ⟨_, hc⟩
      · rw [heq] at hs
        simp at hs
      · exact hc
    · intro e hmem hcand
      exact gee_loop_opt ex len (directory_entries dir) ⟨true, 0, 0, 0⟩ e hmem hcand
  · intro hz e hmem hcand
    by_contra hne
    exact gee_loop_found ex len (directory_entries dir) ⟨true, 0, 0, 0⟩ e hmem hcand hne hz

/-- Witness for C2: in `c2wdir`, a best-fit request of 4 blocks succeeds
and the returned entry is optimal (it is the 5-block empty). -/
theorem c2_get_empty_entry_witness :
    (get_empty_entry c2wdir (99, 0) 4).2 ∈ directory_entries c2wdir ∧
    gee_candidate (99, 0) 4 (get_empty_entry c2wdir (99, 0) 4).2 ∧
    (get_empty_entry c2wdir (99, 0) 4).2.length ≠ 0 ∧
    (∀ e ∈ directory_entries c2wdir, gee_candidate (99, 0) 4 e →
      (4 = 0 → e.length ≤ (get_empty_entry c2wdir (99, 0) 4).2.length) ∧
      (0 < 4 → (get_empty_entry c2wdir (99, 0) 4).2.length ≤ e.length)) :=
  (c2_get_empty_entry c2wdir (99, 0) 4).1 (by decide)

/-- C10: Allocation tie-break and zero-length exclusion.  When several
non-excluded empty entries are equally optimal, `get_empty_entry` returns
the one encountered earliest in the forward cursor walk (no entry before
the returned one in the walk is an equally good or better candidate); and
it never returns an empty entry of length 0, even when L = 0, reporting
failure instead when only zero-length empty candidates exist. -/
theorem c10_allocation_tie_break (dir : List Segment) (ex : Nat × Nat) (len : Nat) :
    ((get_empty_entry dir ex len).1 = true →
      (get_empty_entry dir ex len).2.length ≠ 0 ∧
      gee_candidate ex len (get_empty_entry dir ex len).2 ∧
      ∃ l1 l2, directory_entries dir = l1 ++ (get_empty_entry dir ex len).2 :: l2 ∧
        ∀ x ∈ l1, ¬(gee_candidate ex len x ∧
          ((len = 0 ∧ (get_empty_entry dir ex len).2.length ≤ x.length) ∨
           (0 < len ∧ x.length ≤ (get_empty_entry dir ex len).2.length)))) ∧
    ((∀ e ∈ directory_entries dir, gee_candidate ex len e → e.length = 0) →
      (get_empty_entry dir ex len).1 = false) := by
  simp only [get_empty_entry, bne_iff_ne, bne_eq_false_iff_eq, ne_eq, decide_eq_true_eq,
    decide_eq_false_iff_not, not_not]
  constructor
  · intro hs
    refine ⟨hs, ?_, ?_⟩
    · rcases gee_loop_mem ex len (directory_entries dir) ⟨true, 0, 0, 0⟩ with heq | ⟨_, hc⟩
      · rw [heq] at hs
        simp at hs
      · exact hc
    · rcases gee_loop_first ex len (directory_entries dir) ⟨true, 0, 0, 0⟩ hs with heq | ⟨_, hfirst⟩
      · rw [heq] at hs
        simp at hs
      · exact hfirst
  · intro hz
    rcases gee_loop_mem ex len (directory_entries dir) ⟨true, 0, 0, 0⟩ with heq | ⟨hm, hc⟩
    · rw [heq]
    · exact hz _ hm hc

/-- Witness for C10: in `c10wdir`, a best-fit request of 5 blocks among
two equal 5-block empties returns the first one of the walk. -/
theorem c10_allocation_tie_break_witness :
    (get_empty_entry c10wdir (99, 0) 5).2.length ≠ 0 ∧
    gee_candidate (99, 0) 5 (get_empty_entry c10wdir (99, 0) 5).2 ∧
    ∃ l1 l2, directory_entries c10wdir = l1 ++ (get_empty_entry c10wdir (99, 0) 5).2 :: l2 ∧
      ∀ x ∈ l1, ¬(gee_candidate (99, 0) 5 x ∧
        ((5 = 0 ∧ (get_empty_entry c10wdir (99, 0) 5).2.length ≤ x.length) ∨
         (0 < 5 ∧ x.length ≤ (get_empty_entry c10wdir (99, 0) 5).2.length))) :=
  (c10_allocation_tie_break c10wdir (99, 0) 5).1 (by decide)

/-- C6: Directory validation on read — the code contradicts the claim and
the spec's intent.  The claim says `validate_directory` returns false
exactly when some reachable segment's `flag_word` is neither 0 nor in
[0o1400, 0o1777] (or another sanity check fails); but the source's
lower-bound test reads `directory->d.dir_struct.flag_word` — segment 1's
flag word — instead of `directory[i]`'s (os8pip.c:635, an evident typo,
as every other conjunct uses `directory[i]`).  On `c6dir`, reachable
segment 2 has `flag_word = 1`, which violates the condition, yet
`validate_directory` accepts the directory (so `read_directory` does not
fail with InvalidDirectory). -/
theorem c6_validate_directory_accepts_bad_flag :
    validate_directory c6dir = true ∧
    c6dir[0]? = some c6seg1 ∧ c6seg1.nextSegment = 2 ∧
    c6dir[1]? = some c6seg2 ∧ c6seg2.flagWord ≠ 0 ∧
    ¬(0o1400 ≤ c6seg2.flagWord ∧ c6seg2.flagWord ≤ 0o1777) := by
  refine ⟨by decide, by decide, by decide, by decide, by decide, by decide⟩

/-- Helper: `zero_final` holds of the tail. -/
lemma zero_final_tail (x : FileEntry) (xs : List FileEntry)
    (h : zero_final (x :: xs) = true) : zero_final xs = true := by
  cases xs with
  | nil => rfl
  | cons y ys =>
    simp only [zero_final, Bool.and_eq_true] at h
    exact h.2

/-- Helper: extending `zero_final` by a head that is not a zero-length
empty. -/
lemma zero_final_cons (x : FileEntry) (xs : List FileEntry)
    (hx : ¬(x.emptyFile = true ∧ x.length = 0)) (hxs : zero_final xs = true) :
    zero_final (x :: xs) = true := by
  cases xs with
  | nil => rfl
  | cons y ys =>
    simp only [zero_final, Bool.and_eq_true, Bool.not_eq_true', Bool.and_eq_false_iff]
    refine ⟨?_, hxs⟩
    by_cases he : x.emptyFile = true
    · right
      have : x.length ≠ 0 := fun h0 => hx ⟨he, h0⟩
      simp [beq_iff_eq, this]
    · left
      simp [Bool.not_eq_true] at he
      exact he

/-- Helper: a zero-length empty head contradicts `zero_final` when it has
a successor. -/
lemma zero_final_head (x y : FileEntry) (ys : List FileEntry)
    (h : zero_final (x :: y :: ys) = true) :
    ¬(x.emptyFile = true ∧ x.length = 0) := by
  rintro ⟨h1, h2⟩
  simp only [zero_final, h1, h2, Bool.and_eq_true, Bool.not_eq_true'] at h
  simp at h

/-- Helper: extending `no_adjacent_empty` by a present head. -/
lemma no_adjacent_empty_cons_present (x : FileEntry) (l : List FileEntry)
    (hx : x.emptyFile = false) (hl : no_adjacent_empty l = true) :
    no_adjacent_empty (x :: l) = true := by
  cases l with
  | nil => rfl
  | cons y ys =>
    simp only [no_adjacent_empty, Bool.and_eq_true, Bool.not_eq_true',
      Bool.and_eq_false_iff]
    exact ⟨Or.inl hx, hl⟩

/-- Helper: extending `no_adjacent_empty` when the second entry is
present. -/
lemma no_adjacent_empty_cons_snd (x y : FileEntry) (t : List FileEntry)
    (hy : y.emptyFile = false) (hl : no_adjacent_empty (y :: t) = true) :
    no_adjacent_empty (x :: y :: t) = true := by
  simp only [no_adjacent_empty, Bool.and_eq_true, Bool.not_eq_true',
    Bool.and_eq_false_iff]
  exact ⟨Or.inr hy, hl⟩

/-- Helper: the loop leaves an empty list alone regardless of fuel. -/
lemma consolidateSeg_loop_nil (fuel : Nat) : consolidateSeg_loop fuel [] = ([], 0) := by
  cases fuel <;> rw [consolidateSeg_loop]

/-- Helper: the consolidation pass preserves the total block length of a
segment's entries and accounts every removal in the returned count. -/
lemma consolidateSeg_loop_sum (fuel : Nat) : ∀ es : List FileEntry,
    sum_lengths (consolidateSeg_loop fuel es).1 = sum_lengths es ∧
    (consolidateSeg_loop fuel es).1.length + (consolidateSeg_loop fuel es).2 = es.length := by
  induction fuel with
  | zero =>
    intro es
    rw [consolidateSeg_loop]
    exact ⟨rfl, by simp⟩
  | succ fuel ih =>
    intro es
    match es with
    | [] =>
      rw [consolidateSeg_loop]
      exact ⟨rfl, by simp⟩
    | [e] =>
      rw [consolidateSeg_loop]
      by_cases h1 : e.emptyFile = true ∧ e.length = 0
      · rw [if_pos h1]
        exact ⟨by simp [sum_lengths, h1.2], by simp⟩
      · rw [if_neg h1]
        by_cases h2 : e.emptyFile = true
        · rw [if_pos h2]
          exact ⟨rfl, by simp⟩
        · rw [if_neg h2]
          rw [consolidateSeg_loop_nil fuel]
          exact ⟨rfl, by simp⟩
    | e :: b :: rest2 =>
      rw [consolidateSeg_loop]
      by_cases h1 : e.emptyFile = true ∧ e.length = 0
      · rw [if_pos h1]
        obtain ⟨hs, hc⟩ := ih rest2
        constructor
        · simp only [sum_lengths, List.map_cons, List.sum_cons] at hs ⊢
          omega
        · simp only [List.length_cons] at hc ⊢
          omega
      · rw [if_neg h1]
        by_cases h2 : e.emptyFile = true
        · rw [if_pos h2]
          by_cases h3 : b.emptyFile = true
          · rw [if_pos h3]
            obtain ⟨hs, hc⟩ := ih (⟨true, e.name, e.additional, e.length + b.length⟩ :: rest2)
            constructor
            · simp only [sum_lengths, List.map_cons, List.sum_cons] at hs ⊢
              omega
            · simp only [List.length_cons] at hc ⊢
              omega
          · rw [if_neg h3]
            obtain ⟨hs, hc⟩ := ih (b :: rest2)
            constructor
            · simp only [sum_lengths, List.map_cons, List.sum_cons] at hs ⊢
              omega
            · simp only [List.length_cons] at hc ⊢
              omega
        · rw [if_neg h2]
          obtain ⟨hs, hc⟩ := ih (b :: rest2)
          constructor
          · simp only [sum_lengths, List.map_cons, List.sum_cons] at hs ⊢
            omega
          · simp only [List.length_cons] at hc ⊢
            omega

/-- Helper: on a segment whose zero-length empties are final, the
consolidation pass removes every zero-length empty and leaves no two
adjacent empties; a present head is preserved in place. -/
lemma consolidateSeg_loop_clean (fuel : Nat) : ∀ es : List FileEntry,
    es.length ≤ fuel → zero_final es = true →
    ((∀ e ∈ (consolidateSeg_loop fuel es).1, e.emptyFile = true → e.length ≠ 0) ∧
     no_adjacent_empty (consolidateSeg_loop fuel es).1 = true) ∧
    (∀ b es2, es = b :: es2 → b.emptyFile = false →
      ∃ t, (consolidateSeg_loop fuel es).1 = b :: t) := by
  induction fuel with
  | zero =>
    intro es hlen hz
    have hnil : es = [] := List.eq_nil_of_length_eq_zero (by omega)
    subst hnil
    rw [consolidateSeg_loop]
    exact ⟨⟨by simp, rfl⟩, by intro b es2 h; simp at h⟩
  | succ fuel ih =>
    intro es hlen hz
    match es with
    | [] =>
      rw [consolidateSeg_loop]
      exact ⟨⟨by simp, rfl⟩, by intro b es2 h; simp at h⟩
    | [e] =>
      rw [consolidateSeg_loop]
      by_cases h1 : e.emptyFile = true ∧ e.length = 0
      · rw [if_pos h1]
        refine ⟨⟨by simp, rfl⟩, ?_⟩
        intro b es2 hbe hbp
        have hbeq : b = e := by
          injection hbe with h h2
          exact h.symm
        rw [hbeq, h1.1] at hbp
        simp at hbp
      · rw [if_neg h1]
        by_cases h2 : e.emptyFile = true
        · rw [if_pos h2]
          have hel : e.length ≠ 0 := fun h0 => h1 ⟨h2, h0⟩
          refine ⟨⟨?_, rfl⟩, ?_⟩
          · intro x hx _
            simp at hx
            rw [hx]
            exact hel
          · intro b es2 hbe hbp
            have hbeq : b = e := by
              injection hbe with h h3
              exact h.symm
            rw [hbeq, h2] at hbp
            simp at hbp
        · rw [if_neg h2]
          rw [consolidateSeg_loop_nil fuel]
          have hep : e.emptyFile = false := by
            simp [Bool.not_eq_true] at h2
            exact h2
          refine ⟨⟨?_, rfl⟩, ?_⟩
          · intro x hx hxe
            simp at hx
            rw [hx] at hxe
            rw [hxe] at hep
            simp at hep
          · intro b es2 hbe _
            have hbeq : b = e := by
              injection hbe with h h3
              exact h.symm
            exact ⟨[], by rw [hbeq]⟩
    | e :: b :: rest2 =>
      rw [consolidateSeg_loop]
      by_cases h1 : e.emptyFile = true ∧ e.length = 0
      · exact absurd h1 (zero_final_head e b rest2 hz)
      · rw [if_neg h1]
        by_cases h2 : e.emptyFile = true
        · rw [if_pos h2]
          have hel : e.length ≠ 0 := fun h0 => h1 ⟨h2, h0⟩
          by_cases h3 : b.emptyFile = true
          · rw [if_pos h3]
            have hzm : zero_final
                (⟨true, e.name, e.additional, e.length + b.length⟩ :: rest2) = true := by
              apply zero_final_cons
              · rintro ⟨_, hml⟩
                simp at hml
                omega
              · exact zero_final_tail b rest2 (zero_final_tail e (b :: rest2) hz)
            have hlm : (⟨true, e.name, e.additional,
                e.length + b.length⟩ :: rest2 : List FileEntry).length ≤ fuel := by
              simp only [List.length_cons] at hlen ⊢
              omega
            obtain ⟨⟨hclean, hadj⟩, _⟩ := ih _ hlm hzm
            refine ⟨⟨hclean, hadj⟩, ?_⟩
            intro c es2 hce hcp
            have hceq : c = e := by
              injection hce with h h4
              exact h.symm
            rw [hceq, h2] at hcp
            simp at hcp
          · rw [if_neg h3]
            have hzb : zero_final (b :: rest2) = true := zero_final_tail e _ hz
            have hlb : (b :: rest2 : List FileEntry).length ≤ fuel := by
              simp only [List.length_cons] at hlen ⊢
              omega
            obtain ⟨⟨hclean, hadj⟩, hhead⟩ := ih (b :: rest2) hlb hzb
            have hbp : b.emptyFile = false := by
              simp [Bool.not_eq_true] at h3
              exact h3
            obtain ⟨t, ht⟩ := hhead b rest2 rfl hbp
            refine ⟨⟨?_, ?_⟩, ?_⟩
            · intro x hx hxe
              rcases List.mem_cons.mp hx with rfl | hx2
              · exact hel
              · exact hclean x hx2 hxe
            · rw [ht]
              apply no_adjacent_empty_cons_snd e b t hbp
              rw [← ht]
              exact hadj
            · intro c es2 hce hcp
              have hceq : c = e := by
                injection hce with h h4
                exact h.symm
              rw [hceq, h2] at hcp
              simp at hcp
        · rw [if_neg h2]
          have hzr : zero_final (b :: rest2) = true := zero_final_tail e _ hz
          have hlr : (b :: rest2 : List FileEntry).length ≤ fuel := by
            simp only [List.length_cons] at hlen ⊢
            omega
          obtain ⟨⟨hclean, hadj⟩, _⟩ := ih (b :: rest2) hlr hzr
          have hep : e.emptyFile = false := by
            simp [Bool.not_eq_true] at h2
            exact h2
          refine ⟨⟨?_, ?_⟩, ?_⟩
          · intro x hx hxe
            rcases List.mem_cons.mp hx with rfl | hx2
            · rw [hxe] at hep
              simp at hep
            · exact hclean x hx2 hxe
          · exact no_adjacent_empty_cons_present e _ hep hadj
          · intro c es2 hce _
            have hceq : c = e := by
              injection hce with h h4
              exact h.symm
            exact ⟨(consolidateSeg_loop fuel (b :: rest2)).1, by rw [hceq]⟩

/-- Helper: the chain walk of `consolidate` preserves, for every segment
slot, the `next_segment` link, `first_file_block`, `additional_words` and
the total block length of the entries, never grows the entry count, and
increments `number_files` (mod 2^16) by exactly the number of removed
entries. -/
lemma consolidate_walk_preserve (fuel : Nat) : ∀ (dir : List Segment) (i j : Nat)
    (seg : Segment), dir[j]? = some seg →
    ∃ seg2, (consolidate_walk fuel dir i)[j]? = some seg2 ∧
      seg2.nextSegment = seg.nextSegment ∧
      seg2.firstFileBlock = seg.firstFileBlock ∧
      seg2.additionalWords = seg.additionalWords ∧
      sum_lengths seg2.entries = sum_lengths seg.entries ∧
      seg2.entries.length ≤ seg.entries.length ∧
      seg2.numberFiles % 65536 =
        (seg.numberFiles + (seg.entries.length - seg2.entries.length)) % 65536 := by
  induction fuel with
  | zero =>
    intro dir i j seg hj
    rw [consolidate_walk]
    exact ⟨seg, hj, rfl, rfl, rfl, rfl, le_refl _, by simp⟩
  | succ fuel ih =>
    intro dir i j seg hj
    rw [consolidate_walk]
    split
    · exact ⟨seg, hj, rfl, rfl, rfl, rfl, le_refl _, by simp⟩
    · rename_i segi hi
      have hilen : i < dir.length := by
        by_contra hge
        push_neg at hge
        rw [List.getElem?_eq_none hge] at hi
        exact Option.noConfusion hi
      have hs : sum_lengths (consolidateSeg segi.entries).1 = sum_lengths segi.entries :=
        (consolidateSeg_loop_sum segi.entries.length segi.entries).1
      have hc : (consolidateSeg segi.entries).1.length + (consolidateSeg segi.entries).2 =
          segi.entries.length :=
        (consolidateSeg_loop_sum segi.entries.length segi.entries).2
      have hset : (dir.set i
          (⟨segi.dirty || decide ((consolidateSeg segi.entries).2 ≠ 0),
            (segi.numberFiles + (consolidateSeg segi.entries).2) % 65536,
            segi.firstFileBlock, segi.nextSegment, segi.flagWord,
            segi.additionalWords, (consolidateSeg segi.entries).1⟩ : Segment))[i]? =
          some ⟨segi.dirty || decide ((consolidateSeg segi.entries).2 ≠ 0),
            (segi.numberFiles + (consolidateSeg segi.entries).2) % 65536,
            segi.firstFileBlock, segi.nextSegment, segi.flagWord,
            segi.additionalWords, (consolidateSeg segi.entries).1⟩ :=
        List.getElem?_set_self hilen
      by_cases hij : i = j
      · subst hij
        have hsegeq : segi = seg := by
          rw [hi] at hj
          exact Option.some.inj hj
        subst hsegeq
        split
        · refine ⟨_, hset, rfl, rfl, rfl, hs, ?_, ?_⟩
          · show (consolidateSeg segi.entries).1.length ≤ segi.entries.length
            omega
          · show ((segi.numberFiles + (consolidateSeg segi.entries).2) % 65536) % 65536 =
              (segi.numberFiles +
                (segi.entries.length - (consolidateSeg segi.entries).1.length)) % 65536
            omega
        · obtain ⟨seg2, hg2, hn2, hf2, ha2, hsum2, hlen2, hnf2⟩ :=
            ih (dir.set i _) (segi.nextSegment - 1) i _ hset
          dsimp only at hn2 hf2 ha2 hsum2 hlen2 hnf2
          refine ⟨seg2, hg2, hn2, hf2, ha2, ?_, ?_, ?_⟩
          · rw [hsum2]
            exact hs
          · exact le_trans hlen2 (by omega)
          · omega
      · have hset2 : (dir.set i
            (⟨segi.dirty || decide ((consolidateSeg segi.entries).2 ≠ 0),
              (segi.numberFiles + (consolidateSeg segi.entries).2) % 65536,
              segi.firstFileBlock, segi.nextSegment, segi.flagWord,
              segi.additionalWords, (consolidateSeg segi.entries).1⟩ : Segment))[j]? =
            some seg := by
          rw [List.getElem?_set_ne hij]
          exact hj
        split
        · exact ⟨seg, hset2, rfl, rfl, rfl, rfl, le_refl _, by simp⟩
        · exact ih (dir.set i _) (segi.nextSegment - 1) j seg hset2

/-- C3 counterexample: the claim fails as stated — one pass does *not*
remove every zero-length empty entry.  In `c3dir` the segment holds two
zero-length empties followed by a present file; removing the first
zero-length empty leaves the cursor two words past it, which (after the
shift) is exactly past the second zero-length empty, so that entry is
skipped and survives the pass. -/
theorem c3_consolidate_counterexample :
    consolidate c3dir =
      [⟨true, negate 2, 7, 0, 0, negate 1,
        [⟨true, [], [], 0⟩, ⟨false, [0o0102, 0, 0, 0], [0], 5⟩]⟩] ∧
    (⟨true, [], [], 0⟩ : FileEntry) ∈
      ((consolidate c3dir).getD 0 padSegment).entries := by
  refine ⟨by decide, by decide⟩

/-- C3 (amended): on every directory in which no segment holds a
zero-length empty entry immediately followed by a present entry
(`zero_skip_only` — the domain on which the entry-level pass coincides
with the C pass; the hypothesis marks that fidelity boundary, the model
itself satisfies the conclusion unconditionally), one forward pass of
`consolidate` never moves blocks between segments (for every segment
slot the `next_segment` link, `first_file_block` and the total block
length of the entries are preserved — in particular no segment is
unlinked and no empties merge across a segment boundary) and increments
the segment's `number_files` word by exactly the number of removed
entries; and on every segment whose zero-length empty entries are final
in the segment, the pass removes every zero-length empty entry and
merges every pair of adjacent empty entries (summing their lengths into
the first), leaving no zero-length empty and no two adjacent empties.
(After a removal the cursor sits two words past the removed entry: an
*empty* successor is thereby skipped unexamined and survives, as the
counterexample shows; a *present* successor is re-parsed from two words
inside it, which can cut words out of the entry region and bump
`number_files` again — word-level corruption outside both guarantees.) -/
theorem c3_consolidate :
    (∀ (dir : List Segment) (j : Nat) (seg : Segment),
      (∀ s ∈ dir, zero_skip_only s.entries = true) →
      dir[j]? = some seg →
      ∃ seg2, (consolidate dir)[j]? = some seg2 ∧
        seg2.nextSegment = seg.nextSegment ∧
        seg2.firstFileBlock = seg.firstFileBlock ∧
        seg2.additionalWords = seg.additionalWords ∧
        sum_lengths seg2.entries = sum_lengths seg.entries ∧
        seg2.entries.length ≤ seg.entries.length ∧
        seg2.numberFiles % 65536 =
          (seg.numberFiles + (seg.entries.length - seg2.entries.length)) % 65536) ∧
    (∀ es : List FileEntry, zero_final es = true →
      sum_lengths (consolidateSeg es).1 = sum_lengths es ∧
      (consolidateSeg es).1.length + (consolidateSeg es).2 = es.length ∧
      (∀ e ∈ (consolidateSeg es).1, e.emptyFile = true → e.length ≠ 0) ∧
      no_adjacent_empty (consolidateSeg es).1 = true) := by
  constructor
  · intro dir j seg _hskip hj
    exact consolidate_walk_preserve 6 dir 0 j seg hj
  · intro es hz
    obtain ⟨hs, hc⟩ := consolidateSeg_loop_sum es.length es
    obtain ⟨⟨hclean, hadj⟩, _⟩ := consolidateSeg_loop_clean es.length es (le_refl _) hz
    exact ⟨hs, hc, hclean, hadj⟩

/-- Witness for C3: a concrete single-segment directory with two adjacent
empties (no zero-length empty precedes a present entry, so the
`zero_skip_only` hypothesis holds), and a concrete entry list with
segment-final empties. -/
theorem c3_consolidate_witness :
    (∃ seg2, (consolidate [c3wseg])[0]? = some seg2 ∧
      seg2.nextSegment = c3wseg.nextSegment ∧
      seg2.firstFileBlock = c3wseg.firstFileBlock ∧
      seg2.additionalWords = c3wseg.additionalWords ∧
      sum_lengths seg2.entries = sum_lengths c3wseg.entries ∧
      seg2.entries.length ≤ c3wseg.entries.length ∧
      seg2.numberFiles % 65536 =
        (c3wseg.numberFiles + (c3wseg.entries.length - seg2.entries.length)) % 65536) ∧
    (sum_lengths (consolidateSeg c3wes).1 = sum_lengths c3wes ∧
     (consolidateSeg c3wes).1.length + (consolidateSeg c3wes).2 = c3wes.length ∧
     (∀ e ∈ (consolidateSeg c3wes).1, e.emptyFile = true → e.length ≠ 0) ∧
     no_adjacent_empty (consolidateSeg c3wes).1 = true) :=
  ⟨c3_consolidate.1 [c3wseg] 0 c3wseg (by decide) (by decide),
   c3_consolidate.2 c3wes (by decide)⟩

/-! ### Dirty tracking through `enter` (claim C9) -/

/-- Helper: a successful indexed lookup bounds the index. -/
lemma getElem?_some_lt {dir : List Segment} {j : Nat} {s : Segment}
    (h : dir[j]? = some s) : j < dir.length :=
  (List.getElem?_eq_some.mp h).1

/-- Helper: an in-range index has a successful lookup. -/
lemma getElem?_exists {dir : List Segment} {j : Nat} (h : j < dir.length) :
    ∃ s, dir[j]? = some s :=
  ⟨dir[j], List.getElem?_eq_getElem h⟩

/-- Helper: `has_room` reads only the entry list and the
additional-words header. -/
lemma has_room_congr {a b : Segment} (he : a.entries = b.entries)
    (ha : a.additionalWords = b.additionalWords) (n : Nat) :
    has_room a n = has_room b n := by
  have hfe : entry_length a = entry_length b := by
    funext e
    simp [entry_length, file_entry_length, ha]
  simp [has_room, used_words, he, hfe]

/-- Helper: destructure a successful `do_move`. -/
lemma do_move_slots {dir : List Segment} {p : Nat} {e : Nat × Nat}
    {dir2 : List Segment} {e2 : Nat × Nat}
    (h : do_move dir p e = some (dir2, e2)) :
    ∃ pseg last qseg,
      dir[p]? = some pseg ∧
      pseg.entries.getLast? = some last ∧
      (dir.set p (move_src_update pseg))[pseg.nextSegment - 1]? = some qseg ∧
      dir2 = (dir.set p (move_src_update pseg)).set (pseg.nextSegment - 1)
          (move_dst_update qseg last) := by
  cases hp : dir[p]? with
  | none => simp [do_move, hp] at h
  | some pseg =>
    cases hl : pseg.entries.getLast? with
    | none => simp [do_move, hp, hl] at h
    | some last =>
      cases hq : (dir.set p (move_src_update pseg))[pseg.nextSegment - 1]? with
      | none => simp [do_move, hp, hl, hq] at h
      | some qseg =>
        simp only [do_move, hp, hl, hq, Option.some.injEq, Prod.mk.injEq] at h
        exact ⟨pseg, last, qseg, rfl, hl, hq, h.1.symm⟩

/-- Helper: destructure a successful `do_alloc`. -/
lemma do_alloc_slots {dir : List Segment} {t : Nat} {dir2 : List Segment}
    (h : do_alloc dir t = some dir2) :
    t + 1 < 6 ∧
    ∃ tseg old last,
      dir[t]? = some tseg ∧ dir[t + 1]? = some old ∧
      tseg.entries.getLast? = some last ∧
      dir2 = (dir.set t (alloc_src_update tseg t)).set (t + 1)
        (alloc_new_segment tseg old last) := by
  by_cases h6 : t + 1 < 6
  · refine ⟨h6, ?_⟩
    cases hp : dir[t]? with
    | none => simp [do_alloc, h6, hp] at h
    | some tseg =>
      cases ho : dir[t + 1]? with
      | none => simp [do_alloc, h6, hp, ho] at h
      | some old =>
        cases hl : tseg.entries.getLast? with
        | none => simp [do_alloc, h6, hp, ho, hl] at h
        | some last =>
          simp only [do_alloc, h6, if_true, hp, ho, hl, Option.some.injEq] at h
          exact ⟨tseg, old, last, rfl, rfl, hl, h.symm⟩
  · simp [do_alloc, h6] at h

/-- Helper: slot-wise effect of a move — every `next_segment` link is
preserved, dirty flags only rise, `number_files` words stay machine
representable, and any changed slot is dirty. -/
lemma do_move_facts {dir : List Segment} {p : Nat} {e : Nat × Nat}
    {dir2 : List Segment} {e2 : Nat × Nat}
    (h : do_move dir p e = some (dir2, e2)) :
    dir2.length = dir.length ∧
    ∀ (j : Nat) (s s2 : Segment), dir[j]? = some s → dir2[j]? = some s2 →
      s2.nextSegment = s.nextSegment ∧
      (s.dirty = true → s2.dirty = true) ∧
      (s2.numberFiles < 65536 ∨ s2.numberFiles = s.numberFiles) ∧
      (s2 ≠ s → s2.dirty = true) := by
  obtain ⟨pseg, last, qseg, hp, hl, hq, hdir2⟩ := do_move_slots h
  subst hdir2
  have hplen : p < dir.length := getElem?_some_lt hp
  have hqlen : pseg.nextSegment - 1 < dir.length := by
    have := getElem?_some_lt hq
    simpa [List.length_set] using this
  refine ⟨by simp [List.length_set], ?_⟩
  intro j s s2 hs hs2
  by_cases hjq : j = pseg.nextSegment - 1
  · subst hjq
    rw [List.getElem?_set_self (by simpa [List.length_set] using hqlen)] at hs2
    have hs2' : s2 = move_dst_update qseg last := by
      simpa using hs2.symm
    have hqn : qseg.nextSegment = s.nextSegment := by
      by_cases hpq : p = pseg.nextSegment - 1
      · rw [← hpq] at hq
        rw [List.getElem?_set_self hplen] at hq
        have h1 : qseg = move_src_update pseg := by simpa using hq.symm
        rw [← hpq] at hs
        have h2 : s = pseg := by
          rw [hp] at hs
          exact (Option.some.inj hs).symm
        rw [h1, h2]
        rfl
      · rw [List.getElem?_set_ne (fun hh => hpq hh)] at hq
        rw [hs] at hq
        exact congrArg Segment.nextSegment (Option.some.inj hq).symm
    refine ⟨by rw [hs2']; exact hqn, ?_, ?_, ?_⟩
    · intro _; rw [hs2']; rfl
    · left; rw [hs2']
      exact Nat.mod_lt _ (by norm_num)
    · intro _; rw [hs2']; rfl
  · by_cases hjp : j = p
    · subst hjp
      rw [List.getElem?_set_ne (fun hh => hjq hh.symm)] at hs2
      rw [List.getElem?_set_self hplen] at hs2
      have hs2' : s2 = move_src_update pseg := by simpa using hs2.symm
      have hsp : s = pseg := by
        rw [hp] at hs
        exact (Option.some.inj hs).symm
      refine ⟨by rw [hs2', hsp]; rfl, ?_, ?_, ?_⟩
      · intro _; rw [hs2']; rfl
      · left; rw [hs2']
        exact Nat.mod_lt _ (by norm_num)
      · intro _; rw [hs2']; rfl
    · rw [List.getElem?_set_ne (fun hh => hjq hh.symm),
        List.getElem?_set_ne (fun hh => hjp hh.symm)] at hs2
      rw [hs] at hs2
      have : s2 = s := (Option.some.inj hs2).symm
      subst this
      exact ⟨rfl, fun hh => hh, Or.inr rfl, fun hh => absurd rfl hh⟩

/-- Helper: slot-wise effect of an allocation — dirty flags only rise,
`number_files` words stay machine representable, slots other than the
tail and the new segment are untouched, the tail is dirty and linked to
the new segment with its room-determining fields unchanged, and the new
segment is a chain tail. -/
lemma do_alloc_facts {dir : List Segment} {t : Nat} {dir2 : List Segment}
    (h : do_alloc dir t = some dir2) :
    dir2.length = dir.length ∧
    ∀ (j : Nat) (s s2 : Segment), dir[j]? = some s → dir2[j]? = some s2 →
      (s.dirty = true → s2.dirty = true) ∧
      (s2.numberFiles < 65536 ∨ s2.numberFiles = s.numberFiles) ∧
      (j ≠ t → j ≠ t + 1 → s2 = s) ∧
      (j = t → s2.dirty = true ∧ s2.nextSegment = t + 2 ∧
        s2.entries = s.entries ∧ s2.additionalWords = s.additionalWords) ∧
      (j = t + 1 → s2.nextSegment = 0) := by
  obtain ⟨h6, tseg, old, last, hp, ho, hl, hdir2⟩ := do_alloc_slots h
  subst hdir2
  have htlen : t < dir.length := getElem?_some_lt hp
  have ht1len : t + 1 < dir.length := getElem?_some_lt ho
  refine ⟨by simp [List.length_set], ?_⟩
  intro j s s2 hs hs2
  by_cases hj1 : j = t + 1
  · subst hj1
    rw [List.getElem?_set_self (by simpa [List.length_set] using ht1len)] at hs2
    have hs2' : s2 = alloc_new_segment tseg old last := by simpa using hs2.symm
    have hso : s = old := by
      rw [ho] at hs
      exact (Option.some.inj hs).symm
    refine ⟨?_, ?_, fun _ hh => absurd rfl hh, fun hh => absurd hh (by omega), fun _ => by rw [hs2']; rfl⟩
    · intro hd
      rw [hs2']
      show old.dirty = true
      exact hso ▸ hd
    · left
      rw [hs2']
      show (4095 : Nat) < 65536
      norm_num
  · by_cases hjt : j = t
    · subst hjt
      rw [List.getElem?_set_ne (fun hh => hj1 hh.symm)] at hs2
      rw [List.getElem?_set_self htlen] at hs2
      have hs2' : s2 = alloc_src_update tseg j := by simpa using hs2.symm
      have hst : s = tseg := by
        rw [hp] at hs
        exact (Option.some.inj hs).symm
      refine ⟨fun _ => by rw [hs2']; rfl, Or.inr (by rw [hs2', hst]; rfl), fun hh _ => absurd rfl hh, fun _ => ?_, fun hh => absurd hh (by omega)⟩
      rw [hs2', hst]
      exact ⟨rfl, rfl, rfl, rfl⟩
    · rw [List.getElem?_set_ne (fun hh => hj1 hh.symm),
        List.getElem?_set_ne (fun hh => hjt hh.symm)] at hs2
      rw [hs] at hs2
      have : s2 = s := (Option.some.inj hs2).symm
      subst this
      exact ⟨fun hh => hh, Or.inr rfl, fun _ _ => rfl, fun hh => absurd hh hjt, fun hh => absurd hh hj1⟩

/-- Helper: the room-making loop preserves the directory length. -/
lemma enter_loop_len : ∀ (fuel : Nat) (dir : List Segment) (entry : Nat × Nat)
    (minFree : Nat) (dirOut : List Segment) (eOut : Nat × Nat),
    enter_loop fuel dir entry minFree = some (dirOut, eOut) →
    dirOut.length = dir.length := by
  intro fuel
  induction fuel with
  | zero =>
    intro dir entry minFree dirOut eOut h
    simp [enter_loop] at h
  | succ f ih =>
    intro dir entry minFree dirOut eOut h
    rw [enter_loop] at h
    cases hd : dir[entry.1]? with
    | none => simp [hd] at h
    | some eseg =>
      simp only [hd] at h
      by_cases hr : has_room eseg minFree = true
      · simp only [hr, if_true] at h
        obtain ⟨h1, h2⟩ := Prod.mk.injEq .. ▸ Option.some.inj h
        rw [← h1]
      · rw [if_neg (by simpa using hr)] at h
        cases hf : find_room 6 dir entry.1 minFree with
        | none => simp [hf] at h
        | some r =>
          simp only [hf] at h
          cases r with
          | inl p =>
            cases hm : do_move dir p entry with
            | none => simp [hm] at h
            | some pr =>
              obtain ⟨dirB, eB⟩ := pr
              simp only [hm] at h
              rw [ih dirB eB minFree dirOut eOut h, (do_move_facts hm).1]
          | inr t =>
            cases ha : do_alloc dir t with
            | none => simp [ha] at h
            | some dirB =>
              simp only [ha] at h
              rw [ih dirB entry minFree dirOut eOut h, (do_alloc_facts ha).1]

/-- Helper: the room-making loop never clears a dirty flag. -/
lemma enter_loop_mono : ∀ (fuel : Nat) (dir : List Segment) (entry : Nat × Nat)
    (minFree : Nat) (dirOut : List Segment) (eOut : Nat × Nat),
    enter_loop fuel dir entry minFree = some (dirOut, eOut) →
    ∀ (j : Nat) (s : Segment), dir[j]? = some s → s.dirty = true →
    ∃ s2, dirOut[j]? = some s2 ∧ s2.dirty = true := by
  intro fuel
  induction fuel with
  | zero =>
    intro dir entry minFree dirOut eOut h
    simp [enter_loop] at h
  | succ f ih =>
    intro dir entry minFree dirOut eOut h j s hs hdirty
    rw [enter_loop] at h
    cases hd : dir[entry.1]? with
    | none => simp [hd] at h
    | some eseg =>
      simp only [hd] at h
      by_cases hr : has_room eseg minFree = true
      · simp only [hr, if_true] at h
        obtain ⟨h1, h2⟩ := Prod.mk.injEq .. ▸ Option.some.inj h
        rw [← h1]
        exact ⟨s, hs, hdirty⟩
      · rw [if_neg (by simpa using hr)] at h
        cases hf : find_room 6 dir entry.1 minFree with
        | none => simp [hf] at h
        | some r =>
          simp only [hf] at h
          cases r with
          | inl p =>
            cases hm : do_move dir p entry with
            | none => simp [hm] at h
            | some pr =>
              obtain ⟨dirB, eB⟩ := pr
              simp only [hm] at h
              obtain ⟨hlen, hfacts⟩ := do_move_facts hm
              obtain ⟨sB, hsB⟩ := getElem?_exists
                (show j < dirB.length by rw [hlen]; exact getElem?_some_lt hs)
              obtain ⟨-, hmono, -, -⟩ := hfacts j s sB hs hsB
              exact ih dirB eB minFree dirOut eOut h j sB hsB (hmono hdirty)
          | inr t =>
            cases ha : do_alloc dir t with
            | none => simp [ha] at h
            | some dirB =>
              simp only [ha] at h
              obtain ⟨hlen, hfacts⟩ := do_alloc_facts ha
              obtain ⟨sB, hsB⟩ := getElem?_exists
                (show j < dirB.length by rw [hlen]; exact getElem?_some_lt hs)
              obtain ⟨hmono, -, -, -, -⟩ := hfacts j s sB hs hsB
              exact ih dirB entry minFree dirOut eOut h j sB hsB (hmono hdirty)

/-- Helper: the room-making loop keeps every `number_files` word below
2^16 (the `pdp8_word_t` representation bound). -/
lemma enter_loop_bound : ∀ (fuel : Nat) (dir : List Segment) (entry : Nat × Nat)
    (minFree : Nat) (dirOut : List Segment) (eOut : Nat × Nat),
    enter_loop fuel dir entry minFree = some (dirOut, eOut) →
    (∀ (j : Nat) (s : Segment), dir[j]? = some s → s.numberFiles < 65536) →
    ∀ (j : Nat) (s2 : Segment), dirOut[j]? = some s2 → s2.numberFiles < 65536 := by
  intro fuel
  induction fuel with
  | zero =>
    intro dir entry minFree dirOut eOut h
    simp [enter_loop] at h
  | succ f ih =>
    intro dir entry minFree dirOut eOut h hb j s2 hs2
    rw [enter_loop] at h
    cases hd : dir[entry.1]? with
    | none => simp [hd] at h
    | some eseg =>
      simp only [hd] at h
      by_cases hr : has_room eseg minFree = true
      · simp only [hr, if_true] at h
        obtain ⟨h1, h2⟩ := Prod.mk.injEq .. ▸ Option.some.inj h
        exact hb j s2 (h1 ▸ hs2)
      · rw [if_neg (by simpa using hr)] at h
        cases hf : find_room 6 dir entry.1 minFree with
        | none => simp [hf] at h
        | some r =>
          simp only [hf] at h
          cases r with
          | inl p =>
            cases hm : do_move dir p entry with
            | none => simp [hm] at h
            | some pr =>
              obtain ⟨dirB, eB⟩ := pr
              simp only [hm] at h
              obtain ⟨hlen, hfacts⟩ := do_move_facts hm
              refine ih dirB eB minFree dirOut eOut h ?_ j s2 hs2
              intro k sB hsB
              obtain ⟨sk, hsk⟩ := getElem?_exists
                (show k < dir.length by rw [← hlen]; exact getElem?_some_lt hsB)
              obtain ⟨-, -, hbd, -⟩ := hfacts k sk sB hsk hsB
              cases hbd with
              | inl hh => exact hh
              | inr hh => rw [hh]; exact hb k sk hsk
          | inr t =>
            cases ha : do_alloc dir t with
            | none => simp [ha] at h
            | some dirB =>
              simp only [ha] at h
              obtain ⟨hlen, hfacts⟩ := do_alloc_facts ha
              refine ih dirB entry minFree dirOut eOut h ?_ j s2 hs2
              intro k sB hsB
              obtain ⟨sk, hsk⟩ := getElem?_exists
                (show k < dir.length by rw [← hlen]; exact getElem?_some_lt hsB)
              obtain ⟨-, hbd, -, -, -⟩ := hfacts k sk sB hsk hsB
              cases hbd with
              | inl hh => exact hh
              | inr hh => rw [hh]; exact hb k sk hsk

/-- Helper: a `Sum.inr` result of `find_room` names a chain tail. -/
lemma find_room_inr_tail : ∀ (fuel : Nat) (dir : List Segment) (i size t : Nat),
    find_room fuel dir i size = some (Sum.inr t) →
    ∃ s, dir[t]? = some s ∧ s.nextSegment = 0 := by
  intro fuel
  induction fuel with
  | zero =>
    intro dir i size t h
    simp [find_room] at h
  | succ f ih =>
    intro dir i size t h
    rw [find_room] at h
    cases hd : dir[i]? with
    | none => simp [hd] at h
    | some seg =>
      simp only [hd] at h
      by_cases hn : seg.nextSegment = 0
      · rw [if_pos hn] at h
        obtain h1 := Option.some.inj h
        obtain h2 := Sum.inr.inj h1
        exact ⟨seg, h2 ▸ hd, hn⟩
      · rw [if_neg hn] at h
        cases hsucc : dir[seg.nextSegment - 1]? with
        | none => simp [hsucc] at h
        | some nseg =>
          simp only [hsucc] at h
          by_cases hroom : has_room nseg size = true
          · simp [hroom] at h
          · rw [if_neg (by simpa using hroom)] at h
            exact ih dir (seg.nextSegment - 1) size t h

/-- Helper: after relinking a tail `t` to a fresh tail `n` (allocation),
the scan from any start that previously ended at `t` now decides at `n`:
it either returns `Sum.inl` of a predecessor linked to `n`, or
`Sum.inr n` itself.  The hypotheses isolate exactly what allocation
does: slot `t` is relinked to `n` with its room unchanged, slot `n` is a
tail, and every other slot is untouched. -/
lemma find_room_relink (dir dirA : List Segment) (t n minFree : Nat)
    (T F : Segment) (hne : n ≠ t)
    (hT : dirA[t]? = some T) (hTn : T.nextSegment = n + 1)
    (hTroom : ∀ s, dir[t]? = some s → has_room T minFree = has_room s minFree)
    (hF : dirA[n]? = some F) (hFn : F.nextSegment = 0)
    (hother : ∀ j, j ≠ t → j ≠ n → dirA[j]? = dir[j]?) :
    ∀ (fuel2 fuel i : Nat) (r : Nat ⊕ Nat),
      find_room fuel dir i minFree = some (Sum.inr t) →
      find_room fuel2 dirA i minFree = some r →
      (∀ p ps, r = Sum.inl p → dirA[p]? = some ps → ps.nextSegment - 1 = n) ∧
      (∀ t2, r = Sum.inr t2 → t2 = n) := by
  intro fuel2
  induction fuel2 with
  | zero =>
    intro fuel i r hpre hpost
    simp [find_room] at hpost
  | succ f2 ih =>
    intro fuel i r hpre hpost
    by_cases hin : i = n
    · subst hin
      rw [find_room] at hpost
      simp only [hF, hFn, if_pos rfl] at hpost
      obtain h1 := (Option.some.inj hpost).symm
      subst h1
      refine ⟨fun p ps hp => by simp at hp, fun t2 ht2 => (Sum.inr.inj ht2).symm⟩
    · by_cases hit : i = t
      · subst hit
        rw [find_room] at hpost
        simp only [hT] at hpost
        rw [if_neg (by rw [hTn]; exact Nat.succ_ne_zero n)] at hpost
        rw [show T.nextSegment - 1 = n by rw [hTn]; omega] at hpost
        simp only [hF] at hpost
        by_cases hroomF : has_room F minFree = true
        · rw [if_pos (by simpa using hroomF)] at hpost
          obtain h1 := (Option.some.inj hpost).symm
          subst h1
          refine ⟨fun p ps hp hps => ?_, fun t2 ht2 => by simp at ht2⟩
          obtain h2 := Sum.inl.inj hp
          subst h2
          rw [hT] at hps
          rw [(Option.some.inj hps).symm, hTn]
          omega
        · rw [if_neg (by simpa using hroomF)] at hpost
          cases f2 with
          | zero => simp [find_room] at hpost
          | succ f3 =>
            rw [find_room] at hpost
            simp only [hF, hFn, if_pos rfl] at hpost
            obtain h1 := (Option.some.inj hpost).symm
            subst h1
            exact ⟨fun p ps hp => by simp at hp, fun t2 ht2 => (Sum.inr.inj ht2).symm⟩
      · -- i is an untouched slot of the old chain
        cases fuel with
        | zero => simp [find_room] at hpre
        | succ f1 =>
          rw [find_room] at hpre
          cases hd : dir[i]? with
          | none => simp [hd] at hpre
          | some sg =>
            simp only [hd] at hpre
            by_cases hs0 : sg.nextSegment = 0
            · rw [if_pos hs0] at hpre
              obtain h1 := Sum.inr.inj (Option.some.inj hpre)
              exact absurd h1 hit
            · rw [if_neg hs0] at hpre
              cases hdj : dir[sg.nextSegment - 1]? with
              | none => simp [hdj] at hpre
              | some sj =>
                simp only [hdj] at hpre
                by_cases hrj : has_room sj minFree = true
                · simp [hrj] at hpre
                · rw [if_neg (by simpa using hrj)] at hpre
                  -- unfold the post walk at the same node
                  rw [find_room] at hpost
                  rw [hother i hit hin] at hpost
                  simp only [hd] at hpost
                  rw [if_neg hs0] at hpost
                  by_cases hjn : sg.nextSegment - 1 = n
                  · rw [hjn] at hpost
                    simp only [hF] at hpost
                    by_cases hroomF : has_room F minFree = true
                    · rw [if_pos (by simpa using hroomF)] at hpost
                      obtain h1 := (Option.some.inj hpost).symm
                      subst h1
                      refine ⟨fun p ps hp hps => ?_, fun t2 ht2 => by simp at ht2⟩
                      obtain h2 := Sum.inl.inj hp
                      subst h2
                      rw [hother i hit hin, hd] at hps
                      rw [(Option.some.inj hps).symm, hjn]
                    · rw [if_neg (by simpa using hroomF)] at hpost
                      cases f2 with
                      | zero => simp [find_room] at hpost
                      | succ f3 =>
                        rw [find_room] at hpost
                        simp only [hF, hFn, if_pos rfl] at hpost
                        obtain h1 := (Option.some.inj hpost).symm
                        subst h1
                        exact ⟨fun p ps hp => by simp at hp,
                          fun t2 ht2 => (Sum.inr.inj ht2).symm⟩
                  · by_cases hjt : sg.nextSegment - 1 = t
                    · rw [hjt] at hpost
                      simp only [hT] at hpost
                      rw [if_neg (by rw [hTroom sj (hjt ▸ hdj)]; simpa using hrj)] at hpost
                      exact ih f1 t r (hjt ▸ hpre) hpost
                    · rw [hother (sg.nextSegment - 1) hjt hjn] at hpost
                      simp only [hdj] at hpost
                      rw [if_neg (by simpa using hrj)] at hpost
                      exact ih f1 (sg.nextSegment - 1) r hpre hpost

/-- Helper: from a state whose scan decides at slot `n` (the freshly
allocated segment) and whose tracked segment has no room unless it *is*
`n`, a successful continuation of the loop leaves `n` dirty — the next
iteration either moves an entry into `n` (`bump_number_files`), or
allocates at tail `n` (`set_next_segment`), or exits only in the `n =
entry.1` case, and dirty flags never fall. -/
lemma pending_resolved (fuel : Nat) (dirA : List Segment) (entry : Nat × Nat)
    (minFree n : Nat) (dirOut : List Segment) (eOut : Nat × Nat)
    (h : enter_loop fuel dirA entry minFree = some (dirOut, eOut))
    (hH1 : (∀ s, dirA[entry.1]? = some s → has_room s minFree = false) ∨
      n = entry.1)
    (hH2 : ∀ r, find_room 6 dirA entry.1 minFree = some r →
      (∀ p ps, r = Sum.inl p → dirA[p]? = some ps → ps.nextSegment - 1 = n) ∧
      (∀ t2, r = Sum.inr t2 → t2 = n)) :
    (∃ s3, dirOut[n]? = some s3 ∧ s3.dirty = true) ∨ n = eOut.1 := by
  cases fuel with
  | zero => simp [enter_loop] at h
  | succ f =>
    rw [enter_loop] at h
    cases hd : dirA[entry.1]? with
    | none => simp [hd] at h
    | some eseg =>
      simp only [hd] at h
      by_cases hr : has_room eseg minFree = true
      · simp only [hr, if_true] at h
        obtain ⟨h1, h2⟩ := Prod.mk.injEq .. ▸ Option.some.inj h
        cases hH1 with
        | inl hno => rw [hno eseg hd] at hr; simp at hr
        | inr hn => right; rw [← h2]; exact hn
      · rw [if_neg (by simpa using hr)] at h
        cases hf : find_room 6 dirA entry.1 minFree with
        | none => simp [hf] at h
        | some r =>
          simp only [hf] at h
          obtain ⟨hinl, hinr⟩ := hH2 r hf
          cases r with
          | inl p =>
            cases hm : do_move dirA p entry with
            | none => simp [hm] at h
            | some pr =>
              obtain ⟨dirB, eB⟩ := pr
              simp only [hm] at h
              obtain ⟨pseg, last, qseg, hp, hl, hq, hdirB⟩ := do_move_slots hm
              have hpn : pseg.nextSegment - 1 = n := hinl p pseg rfl hp
              have hqlen : pseg.nextSegment - 1 <
                  (dirA.set p (move_src_update pseg)).length :=
                getElem?_some_lt hq
              have hdirtyB : dirB[n]? = some (move_dst_update qseg last) := by
                rw [hdirB, ← hpn]
                exact List.getElem?_set_self (by simpa using hqlen)
              obtain ⟨s2, hs2, hs2d⟩ := enter_loop_mono f dirB eB minFree
                dirOut eOut h n (move_dst_update qseg last) hdirtyB rfl
              exact Or.inl ⟨s2, hs2, hs2d⟩
          | inr t2 =>
            have ht2 : t2 = n := hinr t2 rfl
            subst ht2
            cases ha : do_alloc dirA t2 with
            | none => simp [ha] at h
            | some dirB =>
              simp only [ha] at h
              obtain ⟨h6, tseg, old, last, hp, ho, hl, hdirB⟩ := do_alloc_slots ha
              have htlen : t2 < dirA.length := getElem?_some_lt hp
              have hdirtyB : dirB[t2]? = some (alloc_src_update tseg t2) := by
                rw [hdirB]
                rw [List.getElem?_set_ne (by omega)]
                exact List.getElem?_set_self (by simpa using htlen)
              obtain ⟨s2, hs2, hs2d⟩ := enter_loop_mono f dirB entry minFree
                dirOut eOut h t2 (alloc_src_update tseg t2) hdirtyB rfl
              exact Or.inl ⟨s2, hs2, hs2d⟩

/-- Helper: main loop invariant — any slot the room-making loop changes
is dirty on exit unless it is the tracked entry's final segment (which
the insertion then dirties), and any tail the loop extends has a dirty
successor on exit, again unless that successor is the tracked entry's
final segment. -/
lemma enter_loop_main : ∀ (fuel : Nat) (dir : List Segment) (entry : Nat × Nat)
    (minFree : Nat) (dirOut : List Segment) (eOut : Nat × Nat),
    enter_loop fuel dir entry minFree = some (dirOut, eOut) →
    ∀ (j : Nat) (s s2 : Segment), dir[j]? = some s → dirOut[j]? = some s2 →
      (s2 ≠ s → s2.dirty = true ∨ j = eOut.1) ∧
      (s.nextSegment = 0 → s2.nextSegment ≠ 0 →
        (∃ s3, dirOut[j + 1]? = some s3 ∧ s3.dirty = true) ∨ j + 1 = eOut.1) := by
  intro fuel
  induction fuel with
  | zero =>
    intro dir entry minFree dirOut eOut h
    simp [enter_loop] at h
  | succ f ih =>
    intro dir entry minFree dirOut eOut h j s s2 hs hs2
    rw [enter_loop] at h
    cases hd : dir[entry.1]? with
    | none => simp [hd] at h
    | some eseg =>
      simp only [hd] at h
      by_cases hr : has_room eseg minFree = true
      · simp only [hr, if_true] at h
        obtain ⟨h1, h2⟩ := Prod.mk.injEq .. ▸ Option.some.inj h
        rw [← h1] at hs2
        rw [hs] at hs2
        have hss : s2 = s := (Option.some.inj hs2).symm
        subst hss
        exact ⟨fun hne => absurd rfl hne, fun h0 hn0 => absurd h0 hn0⟩
      · rw [if_neg (by simpa using hr)] at h
        cases hf : find_room 6 dir entry.1 minFree with
        | none => simp [hf] at h
        | some r =>
          simp only [hf] at h
          cases r with
          | inl p =>
            cases hm : do_move dir p entry with
            | none => simp [hm] at h
            | some pr =>
              obtain ⟨dirB, eB⟩ := pr
              simp only [hm] at h
              obtain ⟨hlenB, hfactsB⟩ := do_move_facts hm
              have hjlen : j < dirB.length := by
                rw [hlenB]; exact getElem?_some_lt hs
              obtain ⟨sB, hsB⟩ := getElem?_exists hjlen
              obtain ⟨hnextB, hmonoB, -, hchB⟩ := hfactsB j s sB hs hsB
              have IH := ih dirB eB minFree dirOut eOut h j sB s2 hsB hs2
              constructor
              · intro hne
                by_cases hBs : sB = s
                · exact IH.1 (hBs ▸ hne)
                · obtain ⟨s2', hs2', hd2⟩ := enter_loop_mono f dirB eB minFree
                    dirOut eOut h j sB hsB (hchB hBs)
                  left
                  rw [hs2] at hs2'
                  rw [Option.some.inj hs2']
                  exact hd2
              · intro h0 hn0
                exact IH.2 (by rw [hnextB, h0]) hn0
          | inr t =>
            cases ha : do_alloc dir t with
            | none => simp [ha] at h
            | some dirB =>
              simp only [ha] at h
              obtain ⟨hlenB, hfactsB⟩ := do_alloc_facts ha
              obtain ⟨h6, tseg, old, last, hpt, hot, hlt, hdirB⟩ := do_alloc_slots ha
              have htlen : t < dir.length := getElem?_some_lt hpt
              have ht1len : t + 1 < dir.length := getElem?_some_lt hot
              have hT : dirB[t]? = some (alloc_src_update tseg t) := by
                rw [hdirB]
                rw [List.getElem?_set_ne (by omega)]
                exact List.getElem?_set_self htlen
              have hF : dirB[t + 1]? =
                  some (alloc_new_segment tseg old last) := by
                rw [hdirB]
                exact List.getElem?_set_self (by simpa [List.length_set] using ht1len)
              have hH1 : (∀ s', dirB[entry.1]? = some s' →
                  has_room s' minFree = false) ∨ t + 1 = entry.1 := by
                by_cases hne1 : t + 1 = entry.1
                · exact Or.inr hne1
                · left
                  intro s' hs'
                  by_cases het : entry.1 = t
                  · rw [het] at hs'
                    rw [hT] at hs'
                    have hseq : tseg = eseg := by
                      rw [het] at hd
                      rw [hpt] at hd
                      exact Option.some.inj hd
                    rw [← Option.some.inj hs']
                    rw [has_room_congr (a := alloc_src_update tseg t)
                      (b := eseg) (by rw [← hseq]; rfl) (by rw [← hseq]; rfl)]
                    exact Bool.eq_false_iff.mpr hr
                  · rw [hdirB] at hs'
                    rw [List.getElem?_set_ne (fun hh => hne1 hh),
                      List.getElem?_set_ne (fun hh => het hh.symm)] at hs'
                    rw [hd] at hs'
                    rw [← Option.some.inj hs']
                    exact Bool.eq_false_iff.mpr hr
              have hH2 : ∀ r2, find_room 6 dirB entry.1 minFree = some r2 →
                  (∀ p ps, r2 = Sum.inl p → dirB[p]? = some ps →
                    ps.nextSegment - 1 = t + 1) ∧
                  (∀ t2, r2 = Sum.inr t2 → t2 = t + 1) := by
                intro r2 hr2
                refine find_room_relink dir dirB t (t + 1) minFree
                  (alloc_src_update tseg t) (alloc_new_segment tseg old last)
                  (by omega) hT rfl ?_ hF rfl ?_ 6 6 entry.1 r2 hf hr2
                · intro s' hs'
                  have : s' = tseg := by
                    rw [hpt] at hs'
                    exact (Option.some.inj hs').symm
                  rw [this]
                  exact has_room_congr rfl rfl minFree
                · intro k hkt hkn
                  rw [hdirB]
                  rw [List.getElem?_set_ne (fun hh => hkn hh.symm),
                    List.getElem?_set_ne (fun hh => hkt hh.symm)]
              have pend := pending_resolved f dirB entry minFree (t + 1)
                dirOut eOut h hH1 hH2
              have hjlen : j < dirB.length := by
                rw [hlenB]; exact getElem?_some_lt hs
              obtain ⟨sB, hsB⟩ := getElem?_exists hjlen
              obtain ⟨hmonoB, -, huntouched, hatt, hatt1⟩ := hfactsB j s sB hs hsB
              have IH := ih dirB entry minFree dirOut eOut h j sB s2 hsB hs2
              constructor
              · intro hne
                by_cases hjt1 : j = t + 1
                · cases pend with
                  | inl hex =>
                    obtain ⟨s3, hs3, hd3⟩ := hex
                    left
                    rw [← hjt1] at hs3
                    rw [hs2] at hs3
                    rw [Option.some.inj hs3]
                    exact hd3
                  | inr he => right; rw [hjt1, he]
                · by_cases hjt : j = t
                  · obtain ⟨hdB, -, -, -⟩ := hatt hjt
                    obtain ⟨s2', hs2', hd2⟩ := enter_loop_mono f dirB entry minFree
                      dirOut eOut h j sB hsB hdB
                    left
                    rw [hs2] at hs2'
                    rw [Option.some.inj hs2']
                    exact hd2
                  · exact IH.1 ((huntouched hjt hjt1) ▸ hne)
              · intro h0 hn0
                by_cases hjt : j = t
                · rw [hjt]
                  exact pend
                · by_cases hjt1 : j = t + 1
                  · exact IH.2 (hatt1 hjt1) hn0
                  · exact IH.2 (by rw [(huntouched hjt hjt1), h0]) hn0

/-- Helper: a consolidation pass that removes nothing changes
nothing. -/
lemma consolidateSeg_loop_zero (fuel : Nat) : ∀ es : List FileEntry,
    (consolidateSeg_loop fuel es).2 = 0 → (consolidateSeg_loop fuel es).1 = es := by
  induction fuel with
  | zero =>
    intro es _
    rw [consolidateSeg_loop]
  | succ fuel ih =>
    intro es hc
    match es with
    | [] => rw [consolidateSeg_loop]
    | [e] =>
      rw [consolidateSeg_loop] at hc ⊢
      by_cases h1 : e.emptyFile = true ∧ e.length = 0
      · rw [if_pos h1] at hc
        simp at hc
      · rw [if_neg h1] at hc ⊢
        by_cases h2 : e.emptyFile = true
        · rw [if_pos h2]
        · rw [if_neg h2] at hc ⊢
          rw [consolidateSeg_loop_nil fuel]
    | e :: b :: rest2 =>
      rw [consolidateSeg_loop] at hc ⊢
      by_cases h1 : e.emptyFile = true ∧ e.length = 0
      · rw [if_pos h1] at hc
        simp at hc
      · rw [if_neg h1] at hc ⊢
        by_cases h2 : e.emptyFile = true
        · rw [if_pos h2] at hc ⊢
          by_cases h3 : b.emptyFile = true
          · rw [if_pos h3] at hc
            simp at hc
          · rw [if_neg h3] at hc ⊢
            dsimp only at hc ⊢
            rw [ih (b :: rest2) hc]
        · rw [if_neg h2] at hc ⊢
          dsimp only at hc ⊢
          rw [ih (b :: rest2) hc]

/-- Helper: `consolidate` either leaves a slot exactly as it was or
leaves it dirty (given a machine-representable `number_files` word). -/
lemma consolidate_walk_eq_or_dirty (fuel : Nat) : ∀ (dir : List Segment)
    (i j : Nat) (s s2 : Segment), dir[j]? = some s → s.numberFiles < 65536 →
    (consolidate_walk fuel dir i)[j]? = some s2 →
    s2 = s ∨ s2.dirty = true := by
  induction fuel with
  | zero =>
    intro dir i j s s2 hj hb h2
    rw [consolidate_walk] at h2
    rw [hj] at h2
    exact Or.inl (Option.some.inj h2).symm
  | succ fuel ih =>
    intro dir i j s s2 hj hb h2
    rw [consolidate_walk] at h2
    cases hi : dir[i]? with
    | none =>
      simp only [hi] at h2
      rw [hj] at h2
      exact Or.inl (Option.some.inj h2).symm
    | some segi =>
      simp only [hi] at h2
      by_cases hn : segi.nextSegment = 0
      · rw [if_pos hn] at h2
        by_cases hij : j = i
        · subst hij
          have hseq : s = segi := by
            rw [hi] at hj
            exact (Option.some.inj hj).symm
          rw [List.getElem?_set_self (getElem?_some_lt hi)] at h2
          have hs2U := (Option.some.inj h2).symm
          by_cases hc : (consolidateSeg segi.entries).2 = 0
          · left
            have hzero1 : (consolidateSeg segi.entries).1 = segi.entries := by
              rw [consolidateSeg] at hc ⊢
              exact consolidateSeg_loop_zero segi.entries.length segi.entries hc
            rw [hs2U, hseq]
            simp only [hc, hzero1]
            simp [Nat.mod_eq_of_lt (hseq ▸ hb)]
          · right
            rw [hs2U]
            simp [hc]
        · rw [List.getElem?_set_ne (fun hh => hij hh.symm)] at h2
          rw [hj] at h2
          exact Or.inl (Option.some.inj h2).symm
      · rw [if_neg hn] at h2
        by_cases hij : j = i
        · subst hij
          have hseq : s = segi := by
            rw [hi] at hj
            exact (Option.some.inj hj).symm
          have hset : (dir.set j
              (⟨segi.dirty || decide ((consolidateSeg segi.entries).2 ≠ 0),
                (segi.numberFiles + (consolidateSeg segi.entries).2) % 65536,
                segi.firstFileBlock, segi.nextSegment, segi.flagWord,
                segi.additionalWords, (consolidateSeg segi.entries).1⟩ :
                Segment))[j]? = some
              (⟨segi.dirty || decide ((consolidateSeg segi.entries).2 ≠ 0),
                (segi.numberFiles + (consolidateSeg segi.entries).2) % 65536,
                segi.firstFileBlock, segi.nextSegment, segi.flagWord,
                segi.additionalWords, (consolidateSeg segi.entries).1⟩ :
                Segment) :=
            List.getElem?_set_self (getElem?_some_lt hi)
          have hrec := ih (dir.set j _) (segi.nextSegment - 1) j _ s2 hset
            (by dsimp only; exact Nat.mod_lt _ (by norm_num)) h2
          cases hrec with
          | inl hequ =>
            by_cases hc : (consolidateSeg segi.entries).2 = 0
            · left
              have hzero1 : (consolidateSeg segi.entries).1 = segi.entries := by
                rw [consolidateSeg] at hc ⊢
                exact consolidateSeg_loop_zero segi.entries.length segi.entries hc
              rw [hequ, hseq]
              simp only [hc, hzero1]
              simp [Nat.mod_eq_of_lt (hseq ▸ hb)]
            · right
              rw [hequ]
              simp [hc]
          | inr hdd => exact Or.inr hdd
        · have hset : (dir.set i
              (⟨segi.dirty || decide ((consolidateSeg segi.entries).2 ≠ 0),
                (segi.numberFiles + (consolidateSeg segi.entries).2) % 65536,
                segi.firstFileBlock, segi.nextSegment, segi.flagWord,
                segi.additionalWords, (consolidateSeg segi.entries).1⟩ :
                Segment))[j]? = some s := by
            rw [List.getElem?_set_ne (fun hh => hij hh.symm)]
            exact hj
          exact ih (dir.set i _) (segi.nextSegment - 1) j s s2 hset hb h2

/-- C9: whenever `enter` returns successfully, every segment whose
header words or entry words differ from their pre-call image is left
with its dirty flag set (so the commit phase writes it), and whenever
the run extended the segment chain — a slot whose `next_segment` was 0
now links onward — the newly allocated successor segment is dirty.  The
hypothesis is the `pdp8_word_t` representation bound on the
`number_files` words.  (The allocation itself writes the new segment's
header *without* setting its dirty flag, os8pip.c:886-896; the flag is
set before return because the loop necessarily moves an entry into the
new segment, or allocates again at it, before it can exit.) -/
theorem c9_enter_dirty (fuel : Nat) (name : List Nat) (len : Nat)
    (dir dir2 : List Segment) (entry : Nat × Nat)
    (hbound : ∀ s ∈ dir, s.numberFiles < 65536)
    (h : enter fuel name len dir entry = some dir2) :
    (∀ (j : Nat) (s s2 : Segment), dir[j]? = some s → dir2[j]? = some s2 →
        seg_content s2 ≠ seg_content s → s2.dirty = true) ∧
    (∀ (j : Nat) (s s2 : Segment), dir[j]? = some s → dir2[j]? = some s2 →
        s.nextSegment = 0 → s2.nextSegment ≠ 0 →
        ∃ s3, dir2[j + 1]? = some s3 ∧ s3.dirty = true) := by
  rw [enter] at h
  cases hd0 : dir[entry.1]? with
  | none => simp [hd0] at h
  | some eseg0 =>
    simp only [hd0] at h
    cases hl : enter_loop fuel dir entry (file_entry_length eseg0 + 2) with
    | none => simp [hl] at h
    | some pr =>
      obtain ⟨dirM, eM⟩ := pr
      simp only [hl] at h
      by_cases hv : validate_directory dirM = true
      · rw [if_pos hv] at h
        rw [finish_enter] at h
        cases hdM : dirM[eM.1]? with
        | none => simp [hdM] at h
        | some esegM =>
          simp only [hdM] at h
          cases hold : esegM.entries[eM.2 - 1]? with
          | none => simp [hold] at h
          | some oldE =>
            simp only [hold] at h
            by_cases hg : oldE.emptyFile = true ∧ len ≤ oldE.length
            · rw [if_pos hg] at h
              have hdir2 : dir2 = consolidate (dirM.set eM.1
                  (enter_updated_segment esegM (eM.2 - 1) oldE name len
                    (file_entry_length eseg0))) := (Option.some.inj h).symm
              have hlenM : dirM.length = dir.length :=
                enter_loop_len fuel dir entry _ dirM eM hl
              have hboundslot : ∀ (j : Nat) (s : Segment), dir[j]? = some s →
                  s.numberFiles < 65536 :=
                fun j s hjs => hbound s (List.getElem?_mem hjs)
              have hboundM : ∀ (j : Nat) (s : Segment), dirM[j]? = some s →
                  s.numberFiles < 65536 :=
                enter_loop_bound fuel dir entry _ dirM eM hl hboundslot
              have heMlen : eM.1 < dirM.length := getElem?_some_lt hdM
              have hUlook : (dirM.set eM.1
                  (enter_updated_segment esegM (eM.2 - 1) oldE name len
                    (file_entry_length eseg0)))[eM.1]? =
                  some (enter_updated_segment esegM (eM.2 - 1) oldE name len
                    (file_entry_length eseg0)) :=
                List.getElem?_set_self heMlen
              have hboundF : ∀ (j : Nat) (s : Segment),
                  (dirM.set eM.1 (enter_updated_segment esegM (eM.2 - 1) oldE
                    name len (file_entry_length eseg0)))[j]? = some s →
                  s.numberFiles < 65536 := by
                intro j s hjs
                by_cases hje : j = eM.1
                · rw [hje, hUlook] at hjs
                  rw [← Option.some.inj hjs]
                  exact Nat.mod_lt _ (by norm_num)
                · rw [List.getElem?_set_ne (fun hh => hje hh.symm)] at hjs
                  exact hboundM j s hjs
              constructor
              · -- changed slots are dirty
                intro j s s2 hs hs2 hne
                have hjlenM : j < dirM.length := by
                  rw [hlenM]; exact getElem?_some_lt hs
                obtain ⟨sM, hsM⟩ := getElem?_exists hjlenM
                rw [hdir2, consolidate] at hs2
                by_cases hje : j = eM.1
                · have hFlook : (dirM.set eM.1 (enter_updated_segment esegM
                      (eM.2 - 1) oldE name len (file_entry_length eseg0)))[j]? =
                      some (enter_updated_segment esegM (eM.2 - 1) oldE name len
                        (file_entry_length eseg0)) := by
                    rw [hje]; exact hUlook
                  have heq := consolidate_walk_eq_or_dirty 6 _ 0 j _ s2 hFlook
                    (hboundF j _ hFlook) hs2
                  cases heq with
                  | inl hequ => rw [hequ]; rfl
                  | inr hdd => exact hdd
                · have hFlook : (dirM.set eM.1 (enter_updated_segment esegM
                      (eM.2 - 1) oldE name len (file_entry_length eseg0)))[j]? =
                      some sM := by
                    rw [List.getElem?_set_ne (fun hh => hje hh.symm)]
                    exact hsM
                  have heq := consolidate_walk_eq_or_dirty 6 _ 0 j sM s2 hFlook
                    (hboundM j sM hsM) hs2
                  cases heq with
                  | inl hequ =>
                    have hMne : sM ≠ s := by
                      intro hcon
                      rw [hequ, hcon] at hne
                      exact hne rfl
                    have hmain := (enter_loop_main fuel dir entry _ dirM eM hl
                      j s sM hs hsM).1 hMne
                    cases hmain with
                    | inl hdd => rw [hequ]; exact hdd
                    | inr hje2 => exact absurd hje2 hje
                  | inr hdd => exact hdd
              · -- chain extension leaves the new segment dirty
                intro j s s2 hs hs2 h0 hn0
                have hjlenM : j < dirM.length := by
                  rw [hlenM]; exact getElem?_some_lt hs
                obtain ⟨sM, hsM⟩ := getElem?_exists hjlenM
                rw [hdir2, consolidate] at hs2
                -- the next_segment word of slot j survives finish and consolidate
                have hMnext : sM.nextSegment ≠ 0 := by
                  by_cases hje : j = eM.1
                  · have hFlook : (dirM.set eM.1 (enter_updated_segment esegM
                        (eM.2 - 1) oldE name len (file_entry_length eseg0)))[j]? =
                        some (enter_updated_segment esegM (eM.2 - 1) oldE name len
                          (file_entry_length eseg0)) := by
                      rw [hje]; exact hUlook
                    obtain ⟨seg2, hg2, hn2, -⟩ :=
                      consolidate_walk_preserve 6 _ 0 j _ hFlook
                    rw [hg2] at hs2
                    have hs2e := Option.some.inj hs2
                    have hMeq : sM = esegM := by
                      rw [hje] at hsM
                      rw [hdM] at hsM
                      exact (Option.some.inj hsM).symm
                    rw [hMeq]
                    rw [← hs2e] at hn0
                    rw [hn2] at hn0
                    exact hn0
                  · have hFlook : (dirM.set eM.1 (enter_updated_segment esegM
                        (eM.2 - 1) oldE name len (file_entry_length eseg0)))[j]? =
                        some sM := by
                      rw [List.getElem?_set_ne (fun hh => hje hh.symm)]
                      exact hsM
                    obtain ⟨seg2, hg2, hn2, -⟩ :=
                      consolidate_walk_preserve 6 _ 0 j sM hFlook
                    rw [hg2] at hs2
                    have hs2e := Option.some.inj hs2
                    rw [← hs2e] at hn0
                    rw [hn2] at hn0
                    exact hn0
                have hmain := (enter_loop_main fuel dir entry _ dirM eM hl
                  j s sM hs hsM).2 h0 hMnext
                -- a dirty successor exists in the post-insertion directory
                have hF3 : ∃ sF3, (dirM.set eM.1 (enter_updated_segment esegM
                    (eM.2 - 1) oldE name len (file_entry_length eseg0)))[j + 1]? =
                    some sF3 ∧ sF3.dirty = true := by
                  by_cases hje1 : j + 1 = eM.1
                  · exact ⟨enter_updated_segment esegM (eM.2 - 1) oldE name len
                      (file_entry_length eseg0), by rw [hje1]; exact hUlook, rfl⟩
                  · cases hmain with
                    | inl hex =>
                      obtain ⟨s3, hs3, hd3⟩ := hex
                      refine ⟨s3, ?_, hd3⟩
                      rw [List.getElem?_set_ne (fun hh => hje1 hh.symm)]
                      exact hs3
                    | inr he => exact absurd he hje1
                obtain ⟨sF3, hsF3, hdF3⟩ := hF3
                obtain ⟨s4, hg4, -⟩ :=
                  consolidate_walk_preserve 6 _ 0 (j + 1) sF3 hsF3
                have heq4 := consolidate_walk_eq_or_dirty 6 _ 0 (j + 1) sF3 s4
                  hsF3 (hboundF (j + 1) sF3 hsF3) hg4
                refine ⟨s4, ?_, ?_⟩
                · rw [hdir2, consolidate]
                  exact hg4
                · cases heq4 with
                  | inl hequ => rw [hequ]; exact hdF3
                  | inr hdd => exact hdd
            · rw [if_neg hg] at h
              simp at h
      · rw [if_neg hv] at h
        simp at h

/-- Witness for C9: entering a 3-block file named `[1,2,3,4]` (sixbit)
into the one-segment directory `c9wdir` whose empty entry holds 10
blocks; the run succeeds and dirties the (changed) segment. -/
theorem c9_enter_dirty_witness :
    (∀ (j : Nat) (s s2 : Segment), c9wdir[j]? = some s →
        ([⟨true, 4094, 7, 0, 0, 4095,
          [⟨false, [1, 2, 3, 4], [0], 3⟩, ⟨true, [], [], 7⟩]⟩] :
          List Segment)[j]? = some s2 →
        seg_content s2 ≠ seg_content s → s2.dirty = true) ∧
    (∀ (j : Nat) (s s2 : Segment), c9wdir[j]? = some s →
        ([⟨true, 4094, 7, 0, 0, 4095,
          [⟨false, [1, 2, 3, 4], [0], 3⟩, ⟨true, [], [], 7⟩]⟩] :
          List Segment)[j]? = some s2 →
        s.nextSegment = 0 → s2.nextSegment ≠ 0 →
        ∃ s3, ([⟨true, 4094, 7, 0, 0, 4095,
          [⟨false, [1, 2, 3, 4], [0], 3⟩, ⟨true, [], [], 7⟩]⟩] :
          List Segment)[j + 1]? = some s3 ∧ s3.dirty = true) :=
  c9_enter_dirty 1 [1, 2, 3, 4] 3 c9wdir
    [⟨true, 4094, 7, 0, 0, 4095,
      [⟨false, [1, 2, 3, 4], [0], 3⟩, ⟨true, [], [], 7⟩]⟩]
    (0, 1) (by decide) (by decide)

end Os8pip
